import Mathlib

/-!
Verification of the ESLint `SourceCode` abstraction and the
`class-methods-use-this` rule, via a shallow embedding of the JavaScript
sources in Lean.  Source text is modelled as `List Char`, machine numbers as
`Nat`/`Int`, JS `Map`s as association lists, and fallible code as `Option` /
`Except`.
-/

set_option maxHeartbeats 1600000

namespace SrcModel

/-! ### Position index (`SourceCode` constructor, `getLocFromIndex`, `getIndexFromLoc`) -/

/-- Characters matched by `createGlobalLinebreakMatcher`
(CR, LF, U+2028 line separator, U+2029 paragraph separator; `\r\n` is a
single match) as a single-character alternative. -/
def isLineBreakChar (c : Char) : Bool :=
  c == '\r' || c == '\n' || c == '\u2028' || c == '\u2029'

/-- The scan in the `SourceCode` constructor that fills `lineStartIndices`:
for every line-break match (`\r\n` preferred over a single break character)
the offset just past the match is recorded.  `pos` is the offset of the head
of the remaining character list. -/
def lineStartsFrom : List Char → Nat → List Nat
  | [], _ => []
  | [c], pos => if isLineBreakChar c then [pos + 1] else []
  | c1 :: c2 :: rest, pos =>
    if c1 = '\r' ∧ c2 = '\n' then (pos + 2) :: lineStartsFrom rest (pos + 2)
    else if isLineBreakChar c1 then (pos + 1) :: lineStartsFrom (c2 :: rest) (pos + 1)
    else lineStartsFrom (c2 :: rest) (pos + 1)

/-- The scan in the `SourceCode` constructor that fills `lines`: the slice of
text between consecutive line-break matches (the final push after the loop
included).  `acc` is the current (partial) line. -/
def splitLinesFrom : List Char → List Char → List (List Char)
  | [], acc => [acc]
  | [c], acc => if isLineBreakChar c then [acc, []] else [acc ++ [c]]
  | c1 :: c2 :: rest, acc =>
    if c1 = '\r' ∧ c2 = '\n' then acc :: splitLinesFrom rest []
    else if isLineBreakChar c1 then acc :: splitLinesFrom (c2 :: rest) []
    else splitLinesFrom (c2 :: rest) (acc ++ [c1])

/-- The part of a constructed `SourceCode` object that position queries use:
the (BOM-stripped) text, the `lines` array and the `lineStartIndices` array. -/
structure SourceCodeModel where
  text : List Char
  lines : List (List Char)
  lineStartIndices : List Nat
deriving DecidableEq

/-- Building the position index exactly as the `SourceCode` constructor does:
`lineStartIndices` starts as `[0]` and one entry is pushed per line-break
match; one line is pushed per match plus a final line after the loop. -/
def mkSourceCode (text : List Char) : SourceCodeModel :=
  { text := text
    lines := splitLinesFrom text []
    lineStartIndices := 0 :: lineStartsFrom text 0 }

/-- A `{line, column}` location: 1-based line, 0-based column.  JS numbers are
modelled as `Int` so that the negative-input checks are representable. -/
structure Loc where
  line : Int
  column : Int
deriving DecidableEq

/-- The `while (low < high)` loop of `findLineNumberBinarySearch`: binary
search returning the index of the first element greater than the target (the
lower bound).  The loop is modelled with explicit fuel; since the span
`high - low` shrinks on every iteration, any fuel of at least `high - low`
yields the loop's result. -/
def bsGo : Nat → List Nat → Nat → Nat → Nat → Nat
  | 0, _, _, low, _ => low
  | fuel + 1, ls, target, low, high =>
    if low < high then
      if target < ls.getD ((low + high) / 2) 0 then
        bsGo fuel ls target low ((low + high) / 2)
      else
        bsGo fuel ls target ((low + high) / 2 + 1) high
    else low

/-- `findLineNumberBinarySearch(lineStartIndices, target)`: binary search over
the sorted line-start offsets, returning the 1-based line number. -/
def findLineNumberBinarySearch (lineStartIndices : List Nat) (target : Nat) : Nat :=
  bsGo lineStartIndices.length lineStartIndices target 0 lineStartIndices.length

/-- `SourceCode#getLocFromIndex`.  A `RangeError` (index out of range) is
modelled as `none`; the `TypeError` branch is excluded by typing. -/
def getLocFromIndex (S : SourceCodeModel) (index : Int) : Option Loc :=
  if index < 0 ∨ index > (S.text.length : Int) then none
  else if index = (S.text.length : Int) then
    some { line := (S.lines.length : Int), column := ((S.lines.getLastD []).length : Int) }
  else if index ≥ (S.lineStartIndices.getLastD 0 : Int) then
    some { line := (S.lineStartIndices.length : Int),
           column := index - (S.lineStartIndices.getD (S.lineStartIndices.length - 1) 0 : Int) }
  else
    some { line := (findLineNumberBinarySearch S.lineStartIndices index.toNat : Int),
           column := index -
             (S.lineStartIndices.getD
               (findLineNumberBinarySearch S.lineStartIndices index.toNat - 1) 0 : Int) }

/-- `SourceCode#getIndexFromLoc`.  A `RangeError` (line/column out of range) is
modelled as `none`; the `TypeError` branch is excluded by typing. -/
def getIndexFromLoc (S : SourceCodeModel) (loc : Loc) : Option Int :=
  if loc.line ≤ 0 then none
  else if loc.line > (S.lineStartIndices.length : Int) then none
  else if loc.column < 0 then none
  else if (loc.line = (S.lineStartIndices.length : Int) ∧
        (S.lineStartIndices.getD (loc.line.toNat - 1) 0 : Int) + loc.column >
          (if loc.line = (S.lineStartIndices.length : Int) then (S.text.length : Int)
            else (S.lineStartIndices.getD loc.line.toNat 0 : Int))) ∨
      (loc.line < (S.lineStartIndices.length : Int) ∧
        (S.lineStartIndices.getD (loc.line.toNat - 1) 0 : Int) + loc.column ≥
          (if loc.line = (S.lineStartIndices.length : Int) then (S.text.length : Int)
            else (S.lineStartIndices.getD loc.line.toNat 0 : Int))) then
    none
  else
    some ((S.lineStartIndices.getD (loc.line.toNat - 1) 0 : Int) + loc.column)

example : getIndexFromLoc (mkSourceCode "ab\nc".data) ⟨2, 1⟩ = some 4 := by decide

example : getIndexFromLoc (mkSourceCode "ab\nc".data) ⟨2, 2⟩ = none := by decide

example : getIndexFromLoc (mkSourceCode "ab\n".data) ⟨2, 0⟩ = some 3 := by decide

example : getLocFromIndex (mkSourceCode "ab\nc".data) 4 = some ⟨2, 1⟩ := by decide

example : getLocFromIndex (mkSourceCode "ab\nc".data) 3 = some ⟨2, 0⟩ := by decide

/-- Claim C2: `getIndexFromLoc` fails with a range error exactly when the line
is non-positive, the line exceeds the number of known lines, the column is
negative, or the computed offset (line start + column) falls at or beyond the
end of the given line (the end taken from the next line's start, or from the
text length for the last line) — except that the position exactly at
end-of-file on the last line is accepted and returns the text length. -/
theorem c2_getIndexFromLoc_range_errors (text : List Char) (loc : Loc) :
    (getIndexFromLoc (mkSourceCode text) loc = none ↔
      (loc.line ≤ 0 ∨
        loc.line > ((mkSourceCode text).lineStartIndices.length : Int) ∨
        loc.column < 0 ∨
        (((mkSourceCode text).lineStartIndices.getD (loc.line.toNat - 1) 0 : Int) + loc.column ≥
            (if loc.line = ((mkSourceCode text).lineStartIndices.length : Int)
              then (text.length : Int)
              else ((mkSourceCode text).lineStartIndices.getD loc.line.toNat 0 : Int)) ∧
          ¬(loc.line = ((mkSourceCode text).lineStartIndices.length : Int) ∧
            ((mkSourceCode text).lineStartIndices.getD (loc.line.toNat - 1) 0 : Int) + loc.column =
              (text.length : Int))))) ∧
    ((0 ≤ loc.column ∧ loc.line = ((mkSourceCode text).lineStartIndices.length : Int) ∧
        ((mkSourceCode text).lineStartIndices.getD (loc.line.toNat - 1) 0 : Int) + loc.column =
          (text.length : Int)) →
      getIndexFromLoc (mkSourceCode text) loc = some (text.length : Int)) := by
  have htext : (mkSourceCode text).text = text := rfl
  have hlen : 0 < (mkSourceCode text).lineStartIndices.length := by
    simp [mkSourceCode]
  constructor
  · unfold getIndexFromLoc
    rw [htext]
    split_ifs <;>
      first
        | exact iff_of_true rfl (by omega)
        | exact iff_of_false (by simp) (by omega)
  · rintro ⟨hc, hl, hpos⟩
    unfold getIndexFromLoc
    rw [htext]
    split_ifs <;>
      first
        | (exfalso; omega)
        | (simp only [Option.some.injEq]; omega)

/-- Witness for C2 at a concrete input: in the text `"ab\nc"` the location
one past the end of line 2 (end of file) is accepted and maps to the text
length, while column 2 of line 1 (on the line terminator) is rejected. -/
theorem c2_getIndexFromLoc_range_errors_witness :
    getIndexFromLoc (mkSourceCode "ab\nc".data) ⟨2, 1⟩ = some 4 ∧
      getIndexFromLoc (mkSourceCode "ab\nc".data) ⟨1, 3⟩ = none := by
  constructor
  · exact (c2_getIndexFromLoc_range_errors "ab\nc".data ⟨2, 1⟩).2 (by decide)
  · exact (c2_getIndexFromLoc_range_errors "ab\nc".data ⟨1, 3⟩).1.mpr (by decide)

/-! #### Invariants of the constructed line index -/

/-- Every recorded line start lies strictly past the scan position and within
the remaining text. -/
theorem lineStartsFrom_mem (cs : List Char) (pos : Nat) :
    ∀ x ∈ lineStartsFrom cs pos, pos < x ∧ x ≤ pos + cs.length := by
  induction cs, pos using lineStartsFrom.induct with
  | case1 pos => simp [lineStartsFrom]
  | case2 c pos hbr =>
    intro x hx
    rw [lineStartsFrom, if_pos hbr] at hx
    simp only [List.mem_singleton] at hx
    subst hx
    simp
  | case3 c pos hbr =>
    intro x hx
    rw [lineStartsFrom, if_neg hbr] at hx
    simp at hx
  | case4 c1 c2 rest pos hrn ih =>
    intro x hx
    rw [lineStartsFrom, if_pos hrn] at hx
    rcases List.mem_cons.mp hx with hx | hx
    · subst hx
      simp only [List.length_cons]
      omega
    · have := ih x hx
      simp only [List.length_cons] at this ⊢
      omega
  | case5 c1 c2 rest pos hrn hbr ih =>
    intro x hx
    rw [lineStartsFrom, if_neg hrn, if_pos hbr] at hx
    rcases List.mem_cons.mp hx with hx | hx
    · subst hx
      simp only [List.length_cons]
      omega
    · have := ih x hx
      simp only [List.length_cons] at this ⊢
      omega
  | case6 c1 c2 rest pos hrn hbr ih =>
    intro x hx
    rw [lineStartsFrom, if_neg hrn, if_neg hbr] at hx
    have := ih x hx
    simp only [List.length_cons] at this ⊢
    omega

/-- The recorded line starts are strictly increasing (stated as a chain
starting at the scan position). -/
theorem lineStartsFrom_chain (cs : List Char) (pos : Nat) :
    List.Chain' (· < ·) (pos :: lineStartsFrom cs pos) := by
  induction cs, pos using lineStartsFrom.induct with
  | case1 pos => simp [lineStartsFrom]
  | case2 c pos hbr =>
    rw [lineStartsFrom, if_pos hbr]
    simp
  | case3 c pos hbr =>
    rw [lineStartsFrom, if_neg hbr]
    simp
  | case4 c1 c2 rest pos hrn ih =>
    rw [lineStartsFrom, if_pos hrn]
    exact List.Chain'.cons (by omega) ih
  | case5 c1 c2 rest pos hrn hbr ih =>
    rw [lineStartsFrom, if_neg hrn, if_pos hbr]
    exact List.Chain'.cons (by omega) ih
  | case6 c1 c2 rest pos hrn hbr ih =>
    rw [lineStartsFrom, if_neg hrn, if_neg hbr]
    rcases List.chain'_cons'.mp ih with ⟨hhead, htail⟩
    refine List.chain'_cons'.mpr ⟨fun y hy => ?_, htail⟩
    have := hhead y hy
    omega

/-- The `lines` array is never empty (a final line is always pushed). -/
theorem splitLinesFrom_ne_nil (cs acc : List Char) : splitLinesFrom cs acc ≠ [] := by
  induction cs, acc using splitLinesFrom.induct with
  | case1 acc => simp [splitLinesFrom]
  | case2 c acc hbr => rw [splitLinesFrom, if_pos hbr]; simp
  | case3 c acc hbr => rw [splitLinesFrom, if_neg hbr]; simp
  | case4 c1 c2 rest acc hrn ih => rw [splitLinesFrom, if_pos hrn]; simp
  | case5 c1 c2 rest acc hrn hbr ih => rw [splitLinesFrom, if_neg hrn, if_pos hbr]; simp
  | case6 c1 c2 rest acc hrn hbr ih => rw [splitLinesFrom, if_neg hrn, if_neg hbr]; exact ih

/-- The default value of `getLastD` is irrelevant for a non-empty list. -/
theorem getLastD_congr {α : Type} (l : List α) (d₁ d₂ : α) (h : l ≠ []) :
    l.getLastD d₁ = l.getLastD d₂ := by
  rw [List.getLastD_eq_getLast?, List.getLastD_eq_getLast?, List.getLast?_eq_getLast l h,
    Option.getD_some, Option.getD_some]

/-- One line is recorded per line-break match, plus the final line: `lines`
has exactly one more entry than the number of matches (for any accumulator
and any scan position). -/
theorem splitLinesFrom_length (cs : List Char) (pos0 : Nat) :
    ∀ acc pos, (splitLinesFrom cs acc).length = (lineStartsFrom cs pos).length + 1 := by
  induction cs, pos0 using lineStartsFrom.induct with
  | case1 _ =>
    intro acc pos
    rw [splitLinesFrom, lineStartsFrom]
    simp
  | case2 c _ hbr =>
    intro acc pos
    rw [splitLinesFrom, lineStartsFrom, if_pos hbr, if_pos hbr]
    simp
  | case3 c _ hbr =>
    intro acc pos
    rw [splitLinesFrom, lineStartsFrom, if_neg hbr, if_neg hbr]
    simp
  | case4 c1 c2 rest _ hrn ih =>
    intro acc pos
    rw [splitLinesFrom, lineStartsFrom, if_pos hrn, if_pos hrn]
    simp only [List.length_cons]
    rw [ih [] (pos + 2)]
  | case5 c1 c2 rest _ hrn hbr ih =>
    intro acc pos
    rw [splitLinesFrom, lineStartsFrom, if_neg hrn, if_neg hrn, if_pos hbr, if_pos hbr]
    simp only [List.length_cons]
    rw [ih [] (pos + 1)]
  | case6 c1 c2 rest _ hrn hbr ih =>
    intro acc pos
    rw [splitLinesFrom, lineStartsFrom, if_neg hrn, if_neg hrn, if_neg hbr, if_neg hbr]
    exact ih (acc ++ [c1]) (pos + 1)

/-- Length accounting for the last line: the length of the last recorded line
plus the last recorded line start equals the total scanned length (stated
without subtraction; `p0` is the start offset of the line under construction
and `acc` its already-scanned part). -/
theorem splitLinesFrom_last (cs : List Char) (pos0 : Nat) :
    ∀ acc p0, ((splitLinesFrom cs acc).getLastD []).length +
        (lineStartsFrom cs (p0 + acc.length)).getLastD p0 =
      p0 + acc.length + cs.length := by
  induction cs, pos0 using lineStartsFrom.induct with
  | case1 _ =>
    intro acc p0
    rw [splitLinesFrom, lineStartsFrom]
    simp [List.getLastD_cons]
    omega
  | case2 c _ hbr =>
    intro acc p0
    rw [splitLinesFrom, lineStartsFrom, if_pos hbr, if_pos hbr]
    simp [List.getLastD_cons]
  | case3 c _ hbr =>
    intro acc p0
    rw [splitLinesFrom, lineStartsFrom, if_neg hbr, if_neg hbr]
    simp [List.getLastD_cons]
    omega
  | case4 c1 c2 rest _ hrn ih =>
    intro acc p0
    rw [splitLinesFrom, lineStartsFrom, if_pos hrn, if_pos hrn]
    rw [List.getLastD_cons, List.getLastD_cons]
    rw [getLastD_congr _ acc [] (splitLinesFrom_ne_nil rest [])]
    have h := ih [] (p0 + acc.length + 2)
    simp only [List.length_nil, Nat.add_zero] at h
    simp only [List.length_cons]
    omega
  | case5 c1 c2 rest _ hrn hbr ih =>
    intro acc p0
    rw [splitLinesFrom, lineStartsFrom, if_neg hrn, if_neg hrn, if_pos hbr, if_pos hbr]
    rw [List.getLastD_cons, List.getLastD_cons]
    rw [getLastD_congr _ acc [] (splitLinesFrom_ne_nil (c2 :: rest) [])]
    have h := ih [] (p0 + acc.length + 1)
    simp only [List.length_nil, Nat.add_zero, List.length_cons] at h ⊢
    omega
  | case6 c1 c2 rest _ hrn hbr ih =>
    intro acc p0
    rw [splitLinesFrom, lineStartsFrom, if_neg hrn, if_neg hrn, if_neg hbr, if_neg hbr]
    have h := ih (acc ++ [c1]) p0
    simp only [List.length_append, List.length_cons, List.length_nil] at h ⊢
    have harg : p0 + (acc.length + 1) = p0 + acc.length + 1 := by omega
    rw [harg] at h
    omega

/-- `getLastD` as an indexed access for non-empty lists. -/
theorem getLastD_eq_getD {α : Type} (l : List α) (d : α) (h : l ≠ []) :
    l.getLastD d = l.getD (l.length - 1) d := by
  have hlen : l.length - 1 < l.length := by
    cases l with
    | nil => exact absurd rfl h
    | cons a t => simp
  rw [List.getLastD_eq_getLast?, List.getLast?_eq_getLast l h, Option.getD_some,
    List.getD_eq_getElem l d hlen, List.getLast_eq_getElem]

/-- The constructed `lineStartIndices` array is non-empty. -/
theorem mk_lineStartIndices_length_pos (text : List Char) :
    0 < (mkSourceCode text).lineStartIndices.length := by
  simp [mkSourceCode]

/-- The first entry of `lineStartIndices` is `0`. -/
theorem mk_lineStartIndices_getD_zero (text : List Char) :
    (mkSourceCode text).lineStartIndices.getD 0 0 = 0 := rfl

/-- `lineStartIndices` is monotone under indexed access. -/
theorem mk_lineStartIndices_mono (text : List Char) :
    ∀ i j, i ≤ j → j < (mkSourceCode text).lineStartIndices.length →
      (mkSourceCode text).lineStartIndices.getD i 0 ≤
        (mkSourceCode text).lineStartIndices.getD j 0 := by
  intro i j hij hj
  rcases Nat.eq_or_lt_of_le hij with rfl | hltij
  · exact le_refl _
  · have hpw : List.Pairwise (· < ·) (mkSourceCode text).lineStartIndices := by
      have hchain := lineStartsFrom_chain text 0
      exact List.chain'_iff_pairwise.mp hchain
    have hi : i < (mkSourceCode text).lineStartIndices.length := by omega
    rw [List.getD_eq_getElem _ _ hi, List.getD_eq_getElem _ _ hj]
    exact le_of_lt ((List.pairwise_iff_getElem.mp hpw) i j hi hj hltij)

/-- Every entry of `lineStartIndices` is at most the text length. -/
theorem mk_lineStartIndices_getD_le (text : List Char) :
    ∀ i, i < (mkSourceCode text).lineStartIndices.length →
      (mkSourceCode text).lineStartIndices.getD i 0 ≤ text.length := by
  intro i hi
  rw [List.getD_eq_getElem _ _ hi]
  have hmem := List.getElem_mem hi
  rcases List.mem_cons.mp hmem with h0 | hmem2
  · omega
  · have := lineStartsFrom_mem text 0 _ hmem2
    omega

/-- `lines` and `lineStartIndices` have the same number of entries. -/
theorem mk_lines_length (text : List Char) :
    (mkSourceCode text).lines.length = (mkSourceCode text).lineStartIndices.length := by
  have h := splitLinesFrom_length text 0 [] 0
  have heq1 : (mkSourceCode text).lines = splitLinesFrom text [] := rfl
  have heq2 : (mkSourceCode text).lineStartIndices = 0 :: lineStartsFrom text 0 := rfl
  rw [heq1, heq2, h]
  simp

/-- The last line's length plus the last line start equals the text length. -/
theorem mk_lines_last (text : List Char) :
    ((mkSourceCode text).lines.getLastD []).length +
        (mkSourceCode text).lineStartIndices.getLastD 0 =
      text.length := by
  have h := splitLinesFrom_last text 0 [] 0
  simp only [List.length_nil, Nat.add_zero, Nat.zero_add] at h
  have heq1 : (mkSourceCode text).lines = splitLinesFrom text [] := rfl
  have heq2 : (mkSourceCode text).lineStartIndices.getLastD 0 =
      (lineStartsFrom text 0).getLastD 0 := by
    have : (mkSourceCode text).lineStartIndices = 0 :: lineStartsFrom text 0 := rfl
    rw [this, List.getLastD_cons]
  rw [heq1, heq2]
  exact h

/-- The `at(-1)` access on `lineStartIndices` as an indexed access. -/
theorem mk_lineStartIndices_getLast (text : List Char) :
    (mkSourceCode text).lineStartIndices.getLastD 0 =
      (mkSourceCode text).lineStartIndices.getD
        ((mkSourceCode text).lineStartIndices.length - 1) 0 :=
  getLastD_eq_getD _ _ (by simp [mkSourceCode])

/-- Correctness of the binary-search loop: with enough fuel and a monotone
array, the result is the boundary between the entries at most the target and
the entries beyond it. -/
theorem bsGo_spec (ls : List Nat) (target : Nat)
    (hmono : ∀ i j, i ≤ j → j < ls.length → ls.getD i 0 ≤ ls.getD j 0) :
    ∀ fuel low high, high - low ≤ fuel → low ≤ high → high ≤ ls.length →
      (∀ i, i < low → ls.getD i 0 ≤ target) →
      (∀ i, high ≤ i → i < ls.length → target < ls.getD i 0) →
      (low ≤ bsGo fuel ls target low high ∧ bsGo fuel ls target low high ≤ high) ∧
        (∀ i, i < bsGo fuel ls target low high → ls.getD i 0 ≤ target) ∧
        (∀ i, bsGo fuel ls target low high ≤ i → i < ls.length →
          target < ls.getD i 0) := by
  intro fuel
  induction fuel with
  | zero =>
    intro low high hf hlh hhl hlow hhigh
    simp only [bsGo]
    exact ⟨⟨le_refl _, hlh⟩, hlow, fun i hi hil => hhigh i (by omega) hil⟩
  | succ fuel ih =>
    intro low high hf hlh hhl hlow hhigh
    simp only [bsGo]
    split_ifs with h1 h2
    · obtain ⟨⟨ha, hb⟩, hc, hd⟩ := ih low ((low + high) / 2) (by omega) (by omega) (by omega)
        hlow (fun i hi hil => lt_of_lt_of_le h2 (hmono _ i hi hil))
      exact ⟨⟨ha, by omega⟩, hc, hd⟩
    · obtain ⟨⟨ha, hb⟩, hc, hd⟩ := ih ((low + high) / 2 + 1) high (by omega) (by omega) hhl
        (by intro i hi
            have hmid : (low + high) / 2 < ls.length := by omega
            have hm := hmono i ((low + high) / 2) (by omega) hmid
            omega)
        hhigh
      exact ⟨⟨by omega, hb⟩, hc, hd⟩
    · exact ⟨⟨le_refl _, hlh⟩, hlow, fun i hi hil => hhigh i (by omega) hil⟩

/-- `findLineNumberBinarySearch` on the constructed index: for a target
strictly before the last line start, the result `r` satisfies
`1 ≤ r < lineCount` with `lineStartIndices[r-1] ≤ target < lineStartIndices[r]`. -/
theorem findLineNumber_spec (text : List Char) (target : Nat)
    (htarget : target < (mkSourceCode text).lineStartIndices.getLastD 0) :
    1 ≤ findLineNumberBinarySearch (mkSourceCode text).lineStartIndices target ∧
      findLineNumberBinarySearch (mkSourceCode text).lineStartIndices target <
        (mkSourceCode text).lineStartIndices.length ∧
      (mkSourceCode text).lineStartIndices.getD
          (findLineNumberBinarySearch (mkSourceCode text).lineStartIndices target - 1) 0 ≤
        target ∧
      target < (mkSourceCode text).lineStartIndices.getD
          (findLineNumberBinarySearch (mkSourceCode text).lineStartIndices target) 0 := by
  have hlenpos := mk_lineStartIndices_length_pos text
  have hzero := mk_lineStartIndices_getD_zero text
  have hlastD := mk_lineStartIndices_getLast text
  have hspec := bsGo_spec (mkSourceCode text).lineStartIndices target
    (mk_lineStartIndices_mono text)
    (mkSourceCode text).lineStartIndices.length 0 (mkSourceCode text).lineStartIndices.length
    (by omega) (by omega) (le_refl _)
    (by intro i hi; omega)
    (by intro i hi hil; omega)
  rcases hspec with ⟨⟨hr0, hrhigh⟩, hbelow, habove⟩
  rw [findLineNumberBinarySearch] at *
  have hr1 : 1 ≤ bsGo (mkSourceCode text).lineStartIndices.length
      (mkSourceCode text).lineStartIndices target 0 (mkSourceCode text).lineStartIndices.length := by
    by_contra hcon
    have hr : bsGo (mkSourceCode text).lineStartIndices.length
        (mkSourceCode text).lineStartIndices target 0
        (mkSourceCode text).lineStartIndices.length = 0 := by omega
    have := habove 0 (by omega) hlenpos
    omega
  have hrlt : bsGo (mkSourceCode text).lineStartIndices.length
      (mkSourceCode text).lineStartIndices target 0 (mkSourceCode text).lineStartIndices.length <
      (mkSourceCode text).lineStartIndices.length := by
    by_contra hcon
    have := hbelow ((mkSourceCode text).lineStartIndices.length - 1) (by omega)
    omega
  refine ⟨hr1, hrlt, hbelow _ (by omega), habove _ (le_refl _) hrlt⟩

/-- `getIndexFromLoc` on an in-range location: no range check fires and the
result is the line start plus the column. -/
theorem getIndexFromLoc_of_valid (S : SourceCodeModel) (line : Nat) (col : Int)
    (h1 : 1 ≤ line) (h2 : line ≤ S.lineStartIndices.length) (h3 : 0 ≤ col)
    (h4 : line = S.lineStartIndices.length →
      (S.lineStartIndices.getD (line - 1) 0 : Int) + col ≤ (S.text.length : Int))
    (h5 : line < S.lineStartIndices.length →
      (S.lineStartIndices.getD (line - 1) 0 : Int) + col <
        (S.lineStartIndices.getD line 0 : Int)) :
    getIndexFromLoc S ⟨(line : Int), col⟩ =
      some ((S.lineStartIndices.getD (line - 1) 0 : Int) + col) := by
  unfold getIndexFromLoc
  simp only [Int.toNat_natCast]
  split_ifs with g1 g2 g3 g4 <;>
    first
      | rfl
      | (exfalso
         rcases Nat.lt_or_ge line S.lineStartIndices.length with hlt | hge
         · have := h5 hlt
           omega
         · have heq : line = S.lineStartIndices.length := by omega
           have := h4 heq
           omega)

/-- Claim C1: for every offset `0 ≤ o ≤ length` of the (BOM-stripped) text,
`getLocFromIndex` followed by `getIndexFromLoc` returns `o` again — the two
conversions are mutually inverse over the whole offset range, including the
synthetic end-of-file position at `o = text.length`. -/
theorem c1_position_roundtrip (text : List Char) (o : Nat) (h : o ≤ text.length) :
    (getLocFromIndex (mkSourceCode text) (o : Int)).bind
        (getIndexFromLoc (mkSourceCode text)) =
      some (o : Int) := by
  have hlenpos := mk_lineStartIndices_length_pos text
  have hlineslen := mk_lines_length text
  have hlineslast := mk_lines_last text
  have hlastD := mk_lineStartIndices_getLast text
  have htext : (mkSourceCode text).text = text := rfl
  have htlen : (mkSourceCode text).text.length = text.length := rfl
  rcases Nat.eq_or_lt_of_le h with heq | hlt
  · -- `o` is exactly the text length: the synthetic end-of-file location.
    simp only [getLocFromIndex, htext]
    rw [if_neg (by omega), if_pos (by omega), Option.some_bind]
    rw [getIndexFromLoc_of_valid (mkSourceCode text) (mkSourceCode text).lines.length
      ((((mkSourceCode text).lines.getLastD []).length : Nat) : Int)
      (by omega) (by omega) (by omega)
      (by intro hl
          rw [hlineslen, ← hlastD]
          omega)
      (by intro hl
          omega)]
    rw [hlineslen, ← hlastD]
    congr 1
    omega
  · rcases Int.lt_or_le (o : Int) ((mkSourceCode text).lineStartIndices.getLastD 0 : Int)
      with hbelow | habove
    · -- strictly inside the text, before the last line start: binary search.
      have hfl := findLineNumber_spec text o (by omega)
      rcases hfl with ⟨hr1, hrlt, hrle, hrgt⟩
      simp only [getLocFromIndex, htext]
      rw [if_neg (by omega), if_neg (by omega), if_neg (by omega), Option.some_bind]
      simp only [Int.toNat_natCast]
      rw [getIndexFromLoc_of_valid (mkSourceCode text)
        (findLineNumberBinarySearch (mkSourceCode text).lineStartIndices o)
        ((o : Int) - ((mkSourceCode text).lineStartIndices.getD
          (findLineNumberBinarySearch (mkSourceCode text).lineStartIndices o - 1) 0 : Int))
        (by omega) (by omega) (by omega)
        (by intro hl; omega)
        (by intro hl; omega)]
      congr 1
      omega
    · -- strictly inside the text, at or past the last line start: last line.
      simp only [getLocFromIndex, htext]
      rw [if_neg (by omega), if_neg (by omega), if_pos (by omega), Option.some_bind]
      have hlastle : (mkSourceCode text).lineStartIndices.getD
          ((mkSourceCode text).lineStartIndices.length - 1) 0 ≤ text.length :=
        mk_lineStartIndices_getD_le text _ (by omega)
      rw [getIndexFromLoc_of_valid (mkSourceCode text)
        (mkSourceCode text).lineStartIndices.length
        ((o : Int) - ((mkSourceCode text).lineStartIndices.getD
          ((mkSourceCode text).lineStartIndices.length - 1) 0 : Int))
        (by omega) (le_refl _) (by omega)
        (by intro hl; omega)
        (by intro hl; omega)]
      congr 1
      omega

/-- Witness for C1 at a concrete input: offset 1 of `"ab\ncd"` (inside line 1)
round-trips through the two conversions; so does offset 4 (inside line 2)
and the end-of-file offset 5. -/
theorem c1_position_roundtrip_witness :
    (getLocFromIndex (mkSourceCode "ab\ncd".data) (1 : Nat)).bind
        (getIndexFromLoc (mkSourceCode "ab\ncd".data)) = some 1 ∧
    (getLocFromIndex (mkSourceCode "ab\ncd".data) (4 : Nat)).bind
        (getIndexFromLoc (mkSourceCode "ab\ncd".data)) = some 4 ∧
    (getLocFromIndex (mkSourceCode "ab\ncd".data) (5 : Nat)).bind
        (getIndexFromLoc (mkSourceCode "ab\ncd".data)) = some 5 :=
  ⟨c1_position_roundtrip "ab\ncd".data 1 (by decide),
   c1_position_roundtrip "ab\ncd".data 4 (by decide),
   c1_position_roundtrip "ab\ncd".data 5 (by decide)⟩

/-! ### The `class-methods-use-this` rule (context-stack protocol) -/

/-- The rule's options (`meta.defaultOptions` provides the first three; an
absent `ignoreClassesWithImplements` is modelled as `none`). -/
structure RuleOptions where
  enforceForClassFields : Bool
  exceptMethods : List String
  ignoreOverrideMethods : Bool
  ignoreClassesWithImplements : Option String
deriving DecidableEq

/-- The default options of `class-methods-use-this`. -/
def defaultOptions : RuleOptions :=
  { enforceForClassFields := true
    exceptMethods := []
    ignoreOverrideMethods := false
    ignoreClassesWithImplements := none }

/-- The class member that is the `node.parent` of an exited function: the
fields of a `MethodDefinition` / `PropertyDefinition` / `AccessorProperty`
that the rule inspects.  `keyName` holds the key's name (for a `Literal` key,
its static string value as computed by the external
`astUtils.getStaticStringValue`); `mstatic` and `moverride` model the
`static` and `override` node flags. -/
structure ClassMember where
  mtype : String
  keyType : String
  keyName : String
  mstatic : Bool
  kind : String
  computed : Bool
  moverride : Bool
  accessibility : Option String
deriving DecidableEq

/-- The enclosing class node (`node.parent.parent`): whether it is a
`ClassDeclaration` and the length of its `implements` clause. -/
structure ClassInfo where
  isClassDeclaration : Bool
  implementsCount : Nat
deriving DecidableEq

/-- `isInstanceMethod` from the rule. -/
def isInstanceMethod (opts : RuleOptions) (node : ClassMember) : Bool :=
  match node.mtype with
  | "MethodDefinition" => !node.mstatic && node.kind != "constructor"
  | "AccessorProperty" => !node.mstatic && opts.enforceForClassFields
  | "PropertyDefinition" => !node.mstatic && opts.enforceForClassFields
  | _ => false

/-- `hasImplements` from the rule: the parent class is a class declaration
implementing at least one interface. -/
def hasImplements (cls : ClassInfo) : Bool :=
  cls.isClassDeclaration && decide (0 < cls.implementsCount)

/-- `isIncludedInstanceMethod` from the rule: an instance method that is not
excluded by the `exceptMethods` / `ignoreOverrideMethods` /
`ignoreClassesWithImplements` options (computed keys are always included). -/
def isIncludedInstanceMethod (opts : RuleOptions) (cls : ClassInfo)
    (node : ClassMember) : Bool :=
  if isInstanceMethod opts node then
    if node.computed then true
    else if opts.ignoreOverrideMethods && node.moverride then false
    else if (match opts.ignoreClassesWithImplements with
        | some mode =>
          hasImplements cls &&
            (mode == "all" ||
              (mode == "public-fields" && node.keyType != "PrivateIdentifier" &&
                (node.accessibility == none || node.accessibility == some "public")))
        | none => false) then false
    else
      !(opts.exceptMethods.contains
        ((if node.keyType == "PrivateIdentifier" then "#" else "") ++ node.keyName))
  else false

/-- A problem reported by the rule, carrying the `data.name` of the report. -/
structure RuleProblem where
  name : String
deriving DecidableEq

/-- Modelled from the spec: `astUtils.getFunctionNameWithKind` is not among
the sources under verification; per the spec the report names the construct
and its enclosing kind ("method", "getter", ...), so the model joins the
member's kind and key name. -/
def getFunctionNameWithKind (node : ClassMember) : String :=
  node.kind ++ " " ++ node.keyName

/-- The rule's per-pass state: the context stack of "`this` used" flags (the
top of the stack is the last element) and the problems reported so far. -/
structure RuleState where
  stack : List Bool
  reports : List RuleProblem
deriving DecidableEq

/-- `pushContext` from the rule: push a fresh `false` frame. -/
def pushContext (stack : List Bool) : List Bool := stack ++ [false]

/-- `popContext` from the rule: pop the top frame; `none` models the
`undefined` returned for an empty stack. -/
def popContext (stack : List Bool) : Option Bool × List Bool :=
  (stack.getLast?, stack.dropLast)

/-- `markThisUsed` from the rule:
`if (stack.length) { stack[stack.length - 1] = true; }`. -/
def markThisUsed (stack : List Bool) : List Bool :=
  if stack.length ≠ 0 then stack.set (stack.length - 1) true else stack

/-- `enterFunction` from the rule: initialize a new context to `false`. -/
def enterFunction (s : RuleState) : RuleState :=
  { s with stack := pushContext s.stack }

/-- `exitFunction` from the rule, for a function whose `node.parent` is the
member `node` inside class `cls`: pop the flag and report (naming the
function) when the member is an included instance method and the popped flag
is not `true`. -/
def exitFunction (opts : RuleOptions) (cls : ClassInfo) (node : ClassMember)
    (s : RuleState) : RuleState :=
  if isIncludedInstanceMethod opts cls node && !((popContext s.stack).1 == some true) then
    { stack := (popContext s.stack).2
      reports := s.reports ++ [⟨getFunctionNameWithKind node⟩] }
  else
    { stack := (popContext s.stack).2, reports := s.reports }

/-- Expressions inside a method body, restricted to the constructs the rule
observes (`ThisExpression`, `Super`) plus inert structure. -/
inductive BodyExpr where
  | lit
  | thisExpr
  | superExpr
  | member (obj : BodyExpr) (prop : String)
deriving DecidableEq

/-- A statement of a method body. -/
inductive BodyStmt where
  | ret (e : Option BodyExpr)
deriving DecidableEq

/-- The `ThisExpression`/`Super` enter events the traversal delivers for an
expression, in source order (each fires `markThisUsed`). -/
def exprMarks : BodyExpr → List Unit
  | .lit => []
  | .thisExpr => [()]
  | .superExpr => [()]
  | .member obj _ => exprMarks obj

/-- The `ThisExpression`/`Super` enter events for a statement. -/
def stmtMarks : BodyStmt → List Unit
  | .ret none => []
  | .ret (some e) => exprMarks e

/-- The `ThisExpression`/`Super` enter events for a method body. -/
def bodyMarks (body : List BodyStmt) : List Unit :=
  (body.map stmtMarks).flatten

/-- Modelled from the spec: the traversal engine delivers, for a method
member, the `FunctionExpression` enter event (→ `enterFunction`), then the
body's `this`/`super` events (→ `markThisUsed`), then the
`FunctionExpression:exit` event (→ `exitFunction` with the member as
`node.parent`). -/
def runMethodMember (opts : RuleOptions) (cls : ClassInfo) (node : ClassMember)
    (body : List BodyStmt) (s : RuleState) : RuleState :=
  exitFunction opts cls node
    { stack := (bodyMarks body).foldl (fun st _ => markThisUsed st) (enterFunction s).stack
      reports := (enterFunction s).reports }

/-- Running the rule over a class body of method members in source order,
starting from the empty stack and no reports. -/
def runClassMethodsRule (opts : RuleOptions) (cls : ClassInfo)
    (members : List (ClassMember × List BodyStmt)) : RuleState :=
  members.foldl (fun s m => runMethodMember opts cls m.1 m.2 s) ⟨[], []⟩

/-- A (possibly static) method member named `name` with an identifier key. -/
def methodMember (name : String) (isStatic : Bool) : ClassMember :=
  { mtype := "MethodDefinition"
    keyType := "Identifier"
    keyName := name
    mstatic := isStatic
    kind := "method"
    computed := false
    moverride := false
    accessibility := none }

/-- The class `A` of the end-to-end scenario: no `implements`. -/
def classAInfo : ClassInfo := { isClassDeclaration := true, implementsCount := 0 }

/-- The members of `class A { foo() { return 1; } bar() { return this.x; } }`. -/
def classAMembers : List (ClassMember × List BodyStmt) :=
  [(methodMember "foo" false, [.ret (some .lit)]),
   (methodMember "bar" false, [.ret (some (.member .thisExpr "x"))])]

/-- A class with one static method `a`, one instance method `b` that uses
`this`, and one instance method `c` that does not. -/
def threeMethodClass (a b c : String) : List (ClassMember × List BodyStmt) :=
  [(methodMember a true, [.ret (some .lit)]),
   (methodMember b false, [.ret (some (.member .thisExpr "x"))]),
   (methodMember c false, [.ret (some .lit)])]

/-- Claim C6: on `class A { foo() { return 1; } bar() { return this.x; } }`
the rule (default options) reports exactly one `missingThis` problem and it
names method `foo`; and for any class with one static method, one instance
method using `this`, and one instance method not using it, exactly one
problem is reported, naming the non-using instance method. -/
theorem c6_class_methods_use_this_scenario :
    (runClassMethodsRule defaultOptions classAInfo classAMembers).reports =
      [⟨"method foo"⟩] ∧
    ∀ a b c : String,
      (runClassMethodsRule defaultOptions classAInfo (threeMethodClass a b c)).reports =
        [⟨"method " ++ c⟩] := by
  refine ⟨rfl, ?_⟩
  intro a b c
  rfl

/-- Setting the element just past a prefix rewrites exactly that element. -/
theorem set_last_append (s : List Bool) (b : Bool) :
    (s ++ [b]).set s.length true = s ++ [true] := by
  induction s with
  | nil => rfl
  | cons x t ih => simp [ih]

/-- Claim C7: a `this`/`super` usage event (`markThisUsed`) sets only the top
frame of the stack to `true` and leaves every frame below the top unchanged;
when the stack is empty it changes nothing. -/
theorem c7_markThisUsed_top_frame_only :
    markThisUsed [] = [] ∧
      ∀ (below : List Bool) (top : Bool),
        markThisUsed (below ++ [top]) = below ++ [true] := by
  refine ⟨rfl, ?_⟩
  intro below top
  have hlen : (below ++ [top]).length ≠ 0 := by simp
  rw [markThisUsed, if_pos hlen]
  have hidx : (below ++ [top]).length - 1 = below.length := by simp
  rw [hidx]
  exact set_last_append below top

/-! ### Globals and the scope model (`normalizeConfigGlobal`,
`addDeclaredGlobals`, `isGlobalReference`) -/

/-- A raw JS value for a per-name global setting: a string, a boolean, or
`null`. -/
inductive JsValue where
  | str (s : String)
  | jsBool (b : Bool)
  | null
deriving DecidableEq

/-- The string interpolation of a raw setting (as in a JS template
literal). -/
def jsValueToString : JsValue → String
  | .str s => s
  | .jsBool true => "true"
  | .jsBool false => "false"
  | .null => "null"

/-- A normalized global visibility setting. -/
inductive GlobalSetting where
  | writable
  | readonly
  | off
deriving DecidableEq

/-- `normalizeConfigGlobal`: normalize a raw configured value
(`"off"`; `true`/`"true"`/`"writeable"`/`"writable"`;
`null`/`false`/`"false"`/`"readable"`/`"readonly"`), failing with the
source's error message for any other value. -/
def normalizeConfigGlobal (configuredValue : JsValue) : Except String GlobalSetting :=
  match configuredValue with
  | .str "off" => .ok .off
  | .jsBool true => .ok .writable
  | .str "true" => .ok .writable
  | .str "writeable" => .ok .writable
  | .str "writable" => .ok .writable
  | .null => .ok .readonly
  | .jsBool false => .ok .readonly
  | .str "false" => .ok .readonly
  | .str "readable" => .ok .readonly
  | .str "readonly" => .ok .readonly
  | v =>
    .error ("\x27" ++ jsValueToString v ++
      "\x27 is not a valid configuration for a global (use \x27readonly\x27, \x27writable\x27, or \x27off\x27)")

/-- A reference as held in a scope's `through`/`references` lists: a tag for
the identity of its identifier node, the identifier's name, and whether it
has been resolved to a variable. -/
structure Reference where
  identifierId : Nat
  identifierName : String
  resolved : Bool
deriving DecidableEq

/-- A variable of the global scope, with the bookkeeping fields maintained
by `addDeclaredGlobals` (`eslintImplicitGlobalSetting`,
`eslintExplicitGlobal`, `eslintExplicitGlobalComments`, `writeable`), its
registered references, and its definitions (`defs`, as definition tags). -/
structure GVariable where
  name : String
  implicitGlobalSetting : Option GlobalSetting
  explicitGlobal : Bool
  explicitGlobalComments : Option (List Nat)
  writeable : Bool
  references : List Reference
  defs : List Nat
deriving DecidableEq

/-- A fresh variable as created by `new eslintScope.Variable(id, scope)`. -/
def newVariable (id : String) : GVariable :=
  { name := id
    implicitGlobalSetting := none
    explicitGlobal := false
    explicitGlobalComments := none
    writeable := false
    references := []
    defs := [] }

/-- `Map#get` on an association list. -/
def alook {α : Type} : List (String × α) → String → Option α
  | [], _ => none
  | (k, v) :: rest, key => if key = k then some v else alook rest key

/-- Mutation of the object stored under a key (the JS assignment to a field
of the variable held by the map): replace the first entry with that key. -/
def areplace {α : Type} : List (String × α) → String → α → List (String × α)
  | [], _, _ => []
  | (k, v) :: rest, key, nv =>
    if key = k then (k, nv) :: rest else (k, v) :: areplace rest key nv

/-- The optional `implicit` bookkeeping structure of the global scope: its
`variables` array (as `vars`, by name), the keys of its `set` map, and the
optional `left` list of pending references. -/
structure ImplicitGlobals where
  vars : List String
  set : List String
  left : Option (List Reference)
deriving DecidableEq

/-- The global scope: the variable names in insertion order (the JS
`variables` array holds the same objects as the `set` map, so the map is the
single store of variable data here), the name-to-variable map `set`, the
pending references `through`, and the optional `implicit` structure. -/
structure GlobalScope where
  varNames : List String
  set : List (String × GVariable)
  through : List Reference
  implicit : Option ImplicitGlobals
deriving DecidableEq

/-- The per-name data collected from inline `globals` comments (already
normalized by `applyInlineConfig`): the latest value and the contributing
comment tags. -/
structure InlineGlobal where
  value : GlobalSetting
  comments : List Nat
deriving DecidableEq

/-- The `configValue` computation of `addDeclaredGlobals`: `undefined` for an
absent name, otherwise the normalized configured value (which may throw). -/
def normCfgValue (configGlobals : List (String × JsValue)) (id : String) :
    Except String (Option GlobalSetting) :=
  match alook configGlobals id with
  | none => .ok none
  | some v => (normalizeConfigGlobal v).map some

/-- The iteration order of `new Set([...Object.keys(configGlobals),
...Object.keys(inlineGlobals)])`: first occurrences, in order. -/
def dedupKeys : List String → List String
  | [] => []
  | x :: xs => x :: (dedupKeys xs).filter (· ≠ x)

/-- One iteration of the loop of `addDeclaredGlobals` for the name `id`: the
inline (comment) value overrides the configured one; `"off"` names are
skipped entirely; otherwise the variable is created if absent and its four
bookkeeping fields are written. -/
def processGlobalId (configGlobals : List (String × JsValue))
    (inlineGlobals : List (String × InlineGlobal)) (scope : GlobalScope)
    (id : String) : Except String GlobalScope :=
  match normCfgValue configGlobals id with
  | .error e => .error e
  | .ok configValue =>
    if (((alook inlineGlobals id).map (·.value)) <|> configValue) = some .off then
      .ok scope
    else
      match alook scope.set id with
      | some v0 =>
        .ok { scope with
          set := areplace scope.set id
            { v0 with
              implicitGlobalSetting := configValue
              explicitGlobal := ((alook inlineGlobals id).map (·.comments)).isSome
              explicitGlobalComments := (alook inlineGlobals id).map (·.comments)
              writeable :=
                (((alook inlineGlobals id).map (·.value)) <|> configValue) == some .writable } }
      | none =>
        .ok { scope with
          varNames := scope.varNames ++ [id]
          set := scope.set ++ [(id,
            { newVariable id with
              implicitGlobalSetting := configValue
              explicitGlobal := ((alook inlineGlobals id).map (·.comments)).isSome
              explicitGlobalComments := (alook inlineGlobals id).map (·.comments)
              writeable :=
                (((alook inlineGlobals id).map (·.value)) <|> configValue) == some .writable })] }

/-- One step of the `through` filter: a reference whose name now has a
variable is linked to it (pushed onto the variable's references, marked
resolved) and dropped from `through`; otherwise it is kept. -/
def resolveThroughStep (acc : List (String × GVariable) × List Reference)
    (ref : Reference) : List (String × GVariable) × List Reference :=
  match alook acc.1 ref.identifierName with
  | some v0 =>
    (areplace acc.1 ref.identifierName
      { v0 with references := v0.references ++ [{ ref with resolved := true }] },
     acc.2)
  | none => (acc.1, acc.2 ++ [ref])

/-- The `through` filter of `addDeclaredGlobals`: resolve and remove the
pending references that now match a variable of the augmented scope. -/
def resolveThrough (scope : GlobalScope) : GlobalScope :=
  { scope with
    set := (scope.through.foldl resolveThroughStep (scope.set, [])).1
    through := (scope.through.foldl resolveThroughStep (scope.set, [])).2 }

/-- One step of the `implicit.variables` filter: an implicit variable whose
name is now in the scope's map is dropped and deleted from `implicit.set`. -/
def pruneImplicitStep (scopeSet : List (String × GVariable))
    (acc : List String × List String) (name : String) : List String × List String :=
  if (alook scopeSet name).isSome then (acc.1, acc.2.filter (· ≠ name))
  else (acc.1 ++ [name], acc.2)

/-- The `implicit` pruning of `addDeclaredGlobals` (a no-op when the scope
implementation does not expose the `implicit` structure). -/
def pruneImplicit (scope : GlobalScope) : GlobalScope :=
  match scope.implicit with
  | none => scope
  | some imp =>
    { scope with
      implicit :=
        some
          { vars := (imp.vars.foldl (pruneImplicitStep scope.set) ([], imp.set)).1
            set := (imp.vars.foldl (pruneImplicitStep scope.set) ([], imp.set)).2
            left := imp.left.map
              (List.filter (fun ref => !(alook scope.set ref.identifierName).isSome)) } }

/-- `addDeclaredGlobals(globalScope, configGlobals, inlineGlobals)`: define
each configured or inline-declared global, then resolve pending references
and prune the `implicit` bookkeeping. -/
def addDeclaredGlobals (globalScope : GlobalScope)
    (configGlobals : List (String × JsValue))
    (inlineGlobals : List (String × InlineGlobal)) : Except String GlobalScope :=
  match (dedupKeys (configGlobals.map Prod.fst ++ inlineGlobals.map Prod.fst)).foldlM
      (processGlobalId configGlobals inlineGlobals) globalScope with
  | .error e => .error e
  | .ok scope1 => .ok (pruneImplicit (resolveThrough scope1))

/-! #### Association-list lemmas -/

/-- Replacing a key's entry by the value it already holds is the identity. -/
theorem areplace_self {α : Type} (l : List (String × α)) (k : String) (v : α)
    (h : alook l k = some v) : areplace l k v = l := by
  induction l with
  | nil => rfl
  | cons p rest ih =>
    rw [alook] at h
    rw [areplace]
    split_ifs with hk
    · rw [if_pos hk] at h
      cases h
      rfl
    · rw [if_neg hk] at h
      rw [ih h]

/-- Lookup at a different key is unaffected by a replacement. -/
theorem alook_areplace_ne {α : Type} (l : List (String × α)) (k k' : String) (nv : α)
    (h : k' ≠ k) : alook (areplace l k nv) k' = alook l k' := by
  induction l with
  | nil => rfl
  | cons p rest ih =>
    rw [areplace]
    split_ifs with hk
    · rw [alook, alook]
      subst hk
      rw [if_neg h, if_neg h]
    · rw [alook, alook]
      split_ifs with hk'
      · rfl
      · exact ih

/-- Lookup at the replaced key returns the new value (when the key was
present). -/
theorem alook_areplace_eq {α : Type} (l : List (String × α)) (k : String) (v nv : α)
    (h : alook l k = some v) : alook (areplace l k nv) k = some nv := by
  induction l with
  | nil => simp [alook] at h
  | cons p rest ih =>
    rw [alook] at h
    rw [areplace]
    split_ifs with hk
    · rw [alook, if_pos hk]
    · rw [if_neg hk] at h
      rw [alook, if_neg hk]
      exact ih h

/-- Replacement preserves the key list. -/
theorem areplace_keys {α : Type} (l : List (String × α)) (k : String) (nv : α) :
    (areplace l k nv).map Prod.fst = l.map Prod.fst := by
  induction l with
  | nil => rfl
  | cons p rest ih =>
    rw [areplace]
    split_ifs with hk
    · simp
    · simp [ih]

/-- Lookup distributes over append. -/
theorem alook_append {α : Type} (l m : List (String × α)) (k : String) :
    alook (l ++ m) k = match alook l k with | some v => some v | none => alook m k := by
  induction l with
  | nil => simp [alook]
  | cons p rest ih =>
    rw [List.cons_append, alook, alook]
    split_ifs with hk
    · rfl
    · exact ih

/-- A lookup misses exactly when the key is absent. -/
theorem alook_eq_none_iff {α : Type} (l : List (String × α)) (k : String) :
    alook l k = none ↔ k ∉ l.map Prod.fst := by
  induction l with
  | nil => simp [alook]
  | cons p rest ih =>
    rw [alook]
    split_ifs with hk
    · simp [hk]
    · simp [hk, ih]

/-! #### Idempotence of `addDeclaredGlobals` -/

/-- The four bookkeeping fields written by the loop of
`addDeclaredGlobals`. -/
def gvFields (v : GVariable) :
    Option GlobalSetting × Bool × Option (List Nat) × Bool :=
  (v.implicitGlobalSetting, v.explicitGlobal, v.explicitGlobalComments, v.writeable)

/-- The invariant established for a name once the loop has processed it:
normalization of its configured value succeeds, and either the effective
value is `off` (the name was skipped) or the scope holds a variable for it
whose four bookkeeping fields are exactly the prescribed ones. -/
def idProcessed (configGlobals : List (String × JsValue))
    (inlineGlobals : List (String × InlineGlobal)) (scope : GlobalScope)
    (id : String) : Prop :=
  ∃ cv, normCfgValue configGlobals id = .ok cv ∧
    ((((alook inlineGlobals id).map (·.value)) <|> cv) = some .off ∨
      ∃ v, alook scope.set id = some v ∧
        gvFields v =
          (cv, ((alook inlineGlobals id).map (·.comments)).isSome,
            (alook inlineGlobals id).map (·.comments),
            (((alook inlineGlobals id).map (·.value)) <|> cv) == some .writable))

/-- Successfully processing a name establishes its invariant. -/
theorem processGlobalId_establishes (configGlobals : List (String × JsValue))
    (inlineGlobals : List (String × InlineGlobal)) (scope scope' : GlobalScope)
    (id : String)
    (h : processGlobalId configGlobals inlineGlobals scope id = .ok scope') :
    idProcessed configGlobals inlineGlobals scope' id := by
  unfold processGlobalId at h
  split at h
  · exact absurd h (by simp)
  · rename_i cv hcv
    split at h
    · rename_i hoff
      injection h with h1
      subst h1
      exact ⟨cv, hcv, Or.inl hoff⟩
    · rename_i hoff
      refine ⟨cv, hcv, Or.inr ?_⟩
      split at h
      · rename_i v0 hv0
        injection h with h1
        subst h1
        refine ⟨_, alook_areplace_eq scope.set id v0 _ hv0, ?_⟩
        rfl
      · rename_i hv0
        injection h with h1
        subst h1
        refine ⟨{ newVariable id with
            implicitGlobalSetting := cv
            explicitGlobal := ((alook inlineGlobals id).map (·.comments)).isSome
            explicitGlobalComments := (alook inlineGlobals id).map (·.comments)
            writeable :=
              (((alook inlineGlobals id).map (·.value)) <|> cv) == some .writable }, ?_, rfl⟩
        rw [alook_append, hv0]
        simp [alook]

/-- Processing one name leaves every other name's entry untouched. -/
theorem processGlobalId_other (configGlobals : List (String × JsValue))
    (inlineGlobals : List (String × InlineGlobal)) (scope scope' : GlobalScope)
    (id' : String)
    (h : processGlobalId configGlobals inlineGlobals scope id' = .ok scope')
    (id : String) (hne : id ≠ id') :
    alook scope'.set id = alook scope.set id := by
  unfold processGlobalId at h
  split at h
  · exact absurd h (by simp)
  · split at h
    · injection h with h1
      subst h1
      rfl
    · split at h
      · rename_i v0 hv0
        injection h with h1
        subst h1
        exact alook_areplace_ne scope.set id' id _ hne
      · rename_i hv0
        injection h with h1
        subst h1
        rw [alook_append]
        cases hsc : alook scope.set id with
        | some v => rfl
        | none => simp [alook, hne]

/-- A processed name's invariant survives the processing of any name. -/
theorem processGlobalId_preserves (configGlobals : List (String × JsValue))
    (inlineGlobals : List (String × InlineGlobal)) (scope scope' : GlobalScope)
    (id id' : String)
    (h : processGlobalId configGlobals inlineGlobals scope id' = .ok scope')
    (hinv : idProcessed configGlobals inlineGlobals scope id) :
    idProcessed configGlobals inlineGlobals scope' id := by
  by_cases heq : id = id'
  · subst heq
    exact processGlobalId_establishes _ _ _ _ _ h
  · have hset := processGlobalId_other _ _ _ _ _ h id heq
    rcases hinv with ⟨cv, hcv, hrest⟩
    refine ⟨cv, hcv, ?_⟩
    rcases hrest with hoff | ⟨v, hv, hf⟩
    · exact Or.inl hoff
    · exact Or.inr ⟨v, by rw [hset]; exact hv, hf⟩

/-- Splitting a successful `Except` bind. -/
theorem except_bind_ok {α β : Type} (x : Except String α) (g : α → Except String β)
    (b : β) (h : (x >>= g) = .ok b) : ∃ a, x = .ok a ∧ g a = .ok b := by
  cases x with
  | error e => simp [Bind.bind, Except.bind] at h
  | ok a => exact ⟨a, rfl, by simpa [Bind.bind, Except.bind] using h⟩

/-- After a successful run of the loop, every listed name is processed (and
previously processed names stay processed). -/
theorem foldl_process_preserves (configGlobals : List (String × JsValue))
    (inlineGlobals : List (String × InlineGlobal)) (ids : List String) :
    ∀ scope scope' : GlobalScope,
      ids.foldlM (processGlobalId configGlobals inlineGlobals) scope = .ok scope' →
      (∀ id, idProcessed configGlobals inlineGlobals scope id →
        idProcessed configGlobals inlineGlobals scope' id) ∧
      (∀ id ∈ ids, idProcessed configGlobals inlineGlobals scope' id) := by
  induction ids with
  | nil =>
    intro scope scope' h
    simp only [List.foldlM_nil] at h
    injection h with h1
    subst h1
    exact ⟨fun id hi => hi, by simp⟩
  | cons x xs ih =>
    intro scope scope' h
    rw [List.foldlM_cons] at h
    obtain ⟨mid, hx, hxs⟩ := except_bind_ok _ _ _ h
    obtain ⟨hpres, hall⟩ := ih mid scope' hxs
    constructor
    · intro id hi
      exact hpres id (processGlobalId_preserves _ _ _ _ _ _ hx hi)
    · intro id hid
      rcases List.mem_cons.mp hid with rfl | hmem
      · exact hpres id (processGlobalId_establishes _ _ _ _ _ hx)
      · exact hall id hmem

/-- Processing a name whose invariant already holds changes nothing. -/
theorem processGlobalId_fixed (configGlobals : List (String × JsValue))
    (inlineGlobals : List (String × InlineGlobal)) (scope : GlobalScope)
    (id : String)
    (hinv : idProcessed configGlobals inlineGlobals scope id) :
    processGlobalId configGlobals inlineGlobals scope id = .ok scope := by
  rcases hinv with ⟨cv, hcv, hrest⟩
  unfold processGlobalId
  simp only [hcv]
  by_cases hoff : (((alook inlineGlobals id).map (·.value)) <|> cv) = some .off
  · rw [if_pos hoff]
  · rw [if_neg hoff]
    rcases hrest with h | ⟨v, hv, hf⟩
    · exact absurd h hoff
    · simp only [hv]
      have hVv :
          { v with
            implicitGlobalSetting := cv
            explicitGlobal := ((alook inlineGlobals id).map (·.comments)).isSome
            explicitGlobalComments := (alook inlineGlobals id).map (·.comments)
            writeable :=
              (((alook inlineGlobals id).map (·.value)) <|> cv) == some .writable } = v := by
        cases v
        simp only [gvFields, Prod.mk.injEq] at hf
        obtain ⟨h1, h2, h3, h4⟩ := hf
        simp_all
      rw [hVv, areplace_self scope.set id v hv]

/-- A loop over names whose invariants already hold is the identity. -/
theorem foldl_process_fixed (configGlobals : List (String × JsValue))
    (inlineGlobals : List (String × InlineGlobal)) (ids : List String)
    (scope : GlobalScope)
    (hall : ∀ id ∈ ids, idProcessed configGlobals inlineGlobals scope id) :
    ids.foldlM (processGlobalId configGlobals inlineGlobals) scope = .ok scope := by
  induction ids with
  | nil => rfl
  | cons x xs ih =>
    rw [List.foldlM_cons, processGlobalId_fixed _ _ _ _ (hall x (by simp))]
    exact ih fun id hid => hall id (by simp [hid])

/-- The `through` fold: the bookkeeping fields of every entry are preserved,
the key set is preserved, and every kept reference either was already kept or
has no variable. -/
theorem resolveThrough_foldl (refs : List Reference) :
    ∀ st : List (String × GVariable) × List Reference,
      (∀ k, (alook (refs.foldl resolveThroughStep st).1 k).map gvFields =
        (alook st.1 k).map gvFields) ∧
      ((refs.foldl resolveThroughStep st).1.map Prod.fst = st.1.map Prod.fst) ∧
      (∀ r ∈ (refs.foldl resolveThroughStep st).2,
        r ∈ st.2 ∨ alook st.1 r.identifierName = none) := by
  induction refs with
  | nil =>
    intro st
    exact ⟨fun k => rfl, rfl, fun r hr => Or.inl hr⟩
  | cons ref rest ih =>
    intro st
    rw [List.foldl_cons]
    obtain ⟨ihf, ihk, ihr⟩ := ih (resolveThroughStep st ref)
    have hstep :
        (∀ k, (alook (resolveThroughStep st ref).1 k).map gvFields =
          (alook st.1 k).map gvFields) ∧
        ((resolveThroughStep st ref).1.map Prod.fst = st.1.map Prod.fst) ∧
        (∀ r ∈ (resolveThroughStep st ref).2,
          r ∈ st.2 ∨ alook st.1 r.identifierName = none) := by
      cases hv : alook st.1 ref.identifierName with
      | some v0 =>
        have he : resolveThroughStep st ref =
            (areplace st.1 ref.identifierName
              { v0 with references := v0.references ++ [{ ref with resolved := true }] },
             st.2) := by
          unfold resolveThroughStep
          rw [hv]
        rw [he]
        refine ⟨?_, areplace_keys _ _ _, fun r hr => Or.inl hr⟩
        intro k
        by_cases hk : k = ref.identifierName
        · subst hk
          rw [alook_areplace_eq st.1 ref.identifierName v0 _ hv, hv]
          rfl
        · rw [alook_areplace_ne st.1 ref.identifierName k _ hk]
      | none =>
        have he : resolveThroughStep st ref = (st.1, st.2 ++ [ref]) := by
          unfold resolveThroughStep
          rw [hv]
        rw [he]
        refine ⟨fun k => rfl, rfl, fun r hr => ?_⟩
        rcases List.mem_append.mp hr with hr | hr
        · exact Or.inl hr
        · rcases List.mem_singleton.mp hr with rfl
          exact Or.inr hv
    obtain ⟨hsf, hsk, hsr⟩ := hstep
    refine ⟨fun k => (ihf k).trans (hsf k), ihk.trans hsk, fun r hr => ?_⟩
    rcases ihr r hr with hr2 | hr2
    · exact hsr r hr2
    · right
      have hnone : (alook (resolveThroughStep st ref).1 r.identifierName).map gvFields = none := by
        rw [hr2]
        rfl
      rw [hsf r.identifierName] at hnone
      exact Option.map_eq_none'.mp hnone

/-- What the `through` filter of `addDeclaredGlobals` does to the scope. -/
theorem resolveThrough_spec (scope : GlobalScope) :
    (resolveThrough scope).varNames = scope.varNames ∧
    (resolveThrough scope).implicit = scope.implicit ∧
    (∀ k, (alook (resolveThrough scope).set k).map gvFields =
      (alook scope.set k).map gvFields) ∧
    ((resolveThrough scope).set.map Prod.fst = scope.set.map Prod.fst) ∧
    (∀ r ∈ (resolveThrough scope).through,
      alook (resolveThrough scope).set r.identifierName = none) := by
  have hrt1 : (resolveThrough scope).set =
      (scope.through.foldl resolveThroughStep (scope.set, [])).1 := rfl
  have hrt2 : (resolveThrough scope).through =
      (scope.through.foldl resolveThroughStep (scope.set, [])).2 := rfl
  obtain ⟨hf, hk, hr⟩ := resolveThrough_foldl scope.through (scope.set, [])
  refine ⟨rfl, rfl, fun k => ?_, ?_, fun r hrr => ?_⟩
  · rw [hrt1]
    exact hf k
  · rw [hrt1]
    exact hk
  · rw [hrt2] at hrr
    rcases hr r hrr with hmem | hnone
    · exact absurd hmem (List.not_mem_nil r)
    · rw [hrt1, alook_eq_none_iff, hk]
      rw [alook_eq_none_iff] at hnone
      exact hnone

/-- If no pending reference matches a variable, the `through` filter is the
identity. -/
theorem resolveThrough_id (scope : GlobalScope)
    (h : ∀ r ∈ scope.through, alook scope.set r.identifierName = none) :
    resolveThrough scope = scope := by
  have hfold : ∀ (refs : List Reference) (keep : List Reference),
      (∀ r ∈ refs, alook scope.set r.identifierName = none) →
      refs.foldl resolveThroughStep (scope.set, keep) = (scope.set, keep ++ refs) := by
    intro refs
    induction refs with
    | nil => intro keep _; simp
    | cons ref rest ih =>
      intro keep hall
      rw [List.foldl_cons]
      have hstep : resolveThroughStep (scope.set, keep) ref = (scope.set, keep ++ [ref]) := by
        unfold resolveThroughStep
        rw [hall ref (by simp)]
      rw [hstep, ih (keep ++ [ref]) (fun r hr => hall r (by simp [hr]))]
      simp
  unfold resolveThrough
  rw [hfold scope.through [] h]
  simp

/-- The `implicit.variables` fold keeps exactly the names with no variable
(along the way deleting matched names from `implicit.set`). -/
theorem pruneImplicit_foldl (scopeSet : List (String × GVariable))
    (names : List String) :
    ∀ st : List String × List String,
      ∀ n ∈ (names.foldl (pruneImplicitStep scopeSet) st).1,
        n ∈ st.1 ∨ alook scopeSet n = none := by
  induction names with
  | nil => intro st n hn; exact Or.inl hn
  | cons x xs ih =>
    intro st n hn
    rw [List.foldl_cons] at hn
    rcases ih (pruneImplicitStep scopeSet st x) n hn with hmem | hnone
    · unfold pruneImplicitStep at hmem
      split_ifs at hmem with hx
      · exact Or.inl hmem
      · rcases List.mem_append.mp hmem with hmem | hmem
        · exact Or.inl hmem
        · rcases List.mem_singleton.mp hmem with rfl
          right
          cases hcc : alook scopeSet n with
          | none => rfl
          | some v => rw [hcc] at hx; simp at hx
    · exact Or.inr hnone

/-- If all names of the `implicit` structure miss the scope's map, the
`implicit` pruning is the identity. -/
theorem pruneImplicit_id (scope : GlobalScope)
    (h : ∀ imp, scope.implicit = some imp →
      (∀ n ∈ imp.vars, alook scope.set n = none) ∧
      (∀ l, imp.left = some l → ∀ r ∈ l, alook scope.set r.identifierName = none)) :
    pruneImplicit scope = scope := by
  unfold pruneImplicit
  split
  · rfl
  · rename_i imp himp
    obtain ⟨hvars, hleft⟩ := h imp himp
    have hfold : ∀ (ns : List String) (acc1 acc2 : List String),
        (∀ n ∈ ns, alook scope.set n = none) →
        ns.foldl (pruneImplicitStep scope.set) (acc1, acc2) = (acc1 ++ ns, acc2) := by
      intro ns
      induction ns with
      | nil => intro acc1 acc2 _; simp
      | cons x xs ih =>
        intro acc1 acc2 hall
        rw [List.foldl_cons]
        have hstep : pruneImplicitStep scope.set (acc1, acc2) x = (acc1 ++ [x], acc2) := by
          unfold pruneImplicitStep
          rw [hall x (by simp)]
          simp
        rw [hstep, ih (acc1 ++ [x]) acc2 (fun n hn => hall n (by simp [hn]))]
        simp
    rw [hfold imp.vars [] imp.set hvars]
    have hl : imp.left.map
        (List.filter (fun ref => !(alook scope.set ref.identifierName).isSome)) = imp.left := by
      cases hll : imp.left with
      | none => rfl
      | some l =>
        simp only [Option.map_some']
        congr 1
        rw [List.filter_eq_self]
        intro r hr
        rw [hleft l hll r hr]
        rfl
    rw [hl]
    simp only [List.nil_append]
    show { scope with implicit := some imp } = scope
    rw [← himp]

/-- What the `implicit` pruning of `addDeclaredGlobals` does to the scope. -/
theorem pruneImplicit_post (scope : GlobalScope) :
    (pruneImplicit scope).varNames = scope.varNames ∧
    (pruneImplicit scope).set = scope.set ∧
    (pruneImplicit scope).through = scope.through ∧
    ∀ imp, (pruneImplicit scope).implicit = some imp →
      (∀ n ∈ imp.vars, alook scope.set n = none) ∧
      (∀ l, imp.left = some l → ∀ r ∈ l, alook scope.set r.identifierName = none) := by
  unfold pruneImplicit
  split
  · rename_i himp
    exact ⟨rfl, rfl, rfl, fun imp h => by simp_all⟩
  · rename_i imp0 himp
    refine ⟨rfl, rfl, rfl, fun imp h => ?_⟩
    simp only [Option.some.injEq] at h
    subst h
    constructor
    · intro n hn
      rcases pruneImplicit_foldl scope.set imp0.vars ([], imp0.set) n hn with hmem | hnone
      · exact absurd hmem (List.not_mem_nil n)
      · exact hnone
    · intro l hl r hr
      simp only at hl
      cases hll : imp0.left with
      | none => rw [hll] at hl; simp at hl
      | some l0 =>
        rw [hll] at hl
        simp only [Option.map_some', Option.some.injEq] at hl
        subst hl
        have := List.of_mem_filter hr
        simp only [Bool.not_eq_true'] at this
        cases hcc : alook scope.set r.identifierName with
        | none => rfl
        | some v => rw [hcc] at this; simp at this

/-- Claim C3: root-scope global augmentation is idempotent — applying
`addDeclaredGlobals` twice with the same configured and inline globals
leaves exactly the state (binding set, per-binding settings, resolved
references, pending `through` list, implicit bookkeeping) produced by
applying it once. -/
theorem c3_addDeclaredGlobals_idempotent (globalScope : GlobalScope)
    (configGlobals : List (String × JsValue))
    (inlineGlobals : List (String × InlineGlobal)) (scope1 : GlobalScope)
    (h : addDeclaredGlobals globalScope configGlobals inlineGlobals = .ok scope1) :
    addDeclaredGlobals scope1 configGlobals inlineGlobals = .ok scope1 := by
  unfold addDeclaredGlobals at h ⊢
  split at h
  · exact absurd h (by simp)
  · rename_i sMid hfold
    injection h with h1
    subst h1
    obtain ⟨_hpres, hall⟩ := foldl_process_preserves _ _ _ _ _ hfold
    obtain ⟨hv1, hi1, hfields, hkeys, hkept⟩ := resolveThrough_spec sMid
    obtain ⟨hv2, hs2, ht2, himp2⟩ := pruneImplicit_post (resolveThrough sMid)
    have hallS3 : ∀ id ∈ dedupKeys (configGlobals.map Prod.fst ++ inlineGlobals.map Prod.fst),
        idProcessed configGlobals inlineGlobals
          (pruneImplicit (resolveThrough sMid)) id := by
      intro id hid
      rcases hall id hid with ⟨cv, hcv, hrest⟩
      refine ⟨cv, hcv, ?_⟩
      rcases hrest with hoff | ⟨v, hv, hf⟩
      · exact Or.inl hoff
      · have hmap := hfields id
        rw [hv] at hmap
        cases hv' : alook (resolveThrough sMid).set id with
        | none => rw [hv'] at hmap; simp at hmap
        | some v' =>
          rw [hv'] at hmap
          simp only [Option.map_some', Option.some.injEq] at hmap
          refine Or.inr ⟨v', ?_, hmap.trans hf⟩
          rw [hs2]
          exact hv'
    have hres : resolveThrough (pruneImplicit (resolveThrough sMid)) =
        pruneImplicit (resolveThrough sMid) := by
      apply resolveThrough_id
      intro r hr
      rw [ht2] at hr
      rw [hs2]
      exact hkept r hr
    have hpr : pruneImplicit (pruneImplicit (resolveThrough sMid)) =
        pruneImplicit (resolveThrough sMid) := by
      apply pruneImplicit_id
      intro imp himp
      obtain ⟨hva, hle⟩ := himp2 imp himp
      constructor
      · intro n hn
        rw [hs2]
        exact hva n hn
      · intro l hll r hr
        rw [hs2]
        exact hle l hll r hr
    simp only [foldl_process_fixed _ _ _ _ hallS3, hres, hpr]

/-- A global scope before augmentation, for the C3 witness: one pending
reference to `x`, and implicit bookkeeping for `x` and `y`. -/
def exScope0 : GlobalScope :=
  { varNames := []
    set := []
    through := [⟨1, "x", false⟩]
    implicit := some ⟨["x", "y"], ["x", "y"], some [⟨2, "x", false⟩]⟩ }

/-- The configured globals for the C3 witness. -/
def exConfig : List (String × JsValue) := [("x", .str "writable")]

/-- The inline globals for the C3 witness (none). -/
def exInline : List (String × InlineGlobal) := []

/-- The scope produced by one application of `addDeclaredGlobals` in the C3
witness. -/
def exScope1 : GlobalScope :=
  { varNames := ["x"]
    set := [("x",
      { name := "x"
        implicitGlobalSetting := some .writable
        explicitGlobal := false
        explicitGlobalComments := none
        writeable := true
        references := [⟨1, "x", true⟩]
        defs := [] })]
    through := []
    implicit := some ⟨["y"], ["y"], some []⟩ }

/-- Witness for C3 at a concrete input: augmenting `exScope0` with the
global `x` once gives `exScope1`, and a second application leaves it
unchanged. -/
theorem c3_addDeclaredGlobals_idempotent_witness :
    addDeclaredGlobals exScope1 exConfig exInline = .ok exScope1 :=
  c3_addDeclaredGlobals_idempotent exScope0 exConfig exInline exScope1 (by rfl)

/-! ### `isGlobalReference` -/

/-- An AST node as inspected by `isGlobalReference`: its `type`, its name
(meaningful for identifiers), and a tag for its identity. -/
structure NodeRef where
  ntype : String
  name : String
  id : Nat
deriving DecidableEq

/-- `SourceCode#isGlobalReference` (the memoization cache is a pure
optimization of the frozen state and is omitted): the node must be an
`Identifier`, its name must map to a binding of the global scope
(`scopeManager.scopes[0].set`) with no definitions, and this identifier
occurrence must be among the binding's references. -/
def isGlobalReference (globalSet : List (String × GVariable)) (node : NodeRef) : Bool :=
  if node.ntype != "Identifier" then false
  else
    match alook globalSet node.name with
    | none => false
    | some v0 =>
      if v0.defs.length > 0 then false
      else v0.references.any (fun r => r.identifierId == node.id)

/-- Claim C5: `isGlobalReference(node)` returns true exactly when the node is
an `Identifier`, its name maps to a root-scope binding whose `defs` is empty,
and that specific identifier occurrence is registered among the binding's
references; in all other cases it returns false. -/
theorem c5_isGlobalReference_iff (globalSet : List (String × GVariable))
    (node : NodeRef) :
    isGlobalReference globalSet node = true ↔
      (node.ntype = "Identifier" ∧
        ∃ v0, alook globalSet node.name = some v0 ∧ v0.defs = [] ∧
          ∃ r ∈ v0.references, r.identifierId = node.id) := by
  unfold isGlobalReference
  split_ifs with h1
  · simp only [Bool.false_eq_true, false_iff]
    rintro ⟨he, -⟩
    simp [he] at h1
  · have hid : node.ntype = "Identifier" := by simpa using h1
    split
    · rename_i hv
      simp only [Bool.false_eq_true, false_iff]
      rintro ⟨-, v0, hv0, -⟩
      rw [hv] at hv0
      exact absurd hv0 (by simp)
    · rename_i v0 hv
      split_ifs with hd
      · simp only [Bool.false_eq_true, false_iff]
        rintro ⟨-, v1, hv1, hdefs, -⟩
        rw [hv] at hv1
        injection hv1 with hv1
        subst hv1
        rw [hdefs] at hd
        simp at hd
      · simp only [List.any_eq_true, beq_iff_eq]
        constructor
        · rintro ⟨r, hr, hre⟩
          exact ⟨hid, v0, hv,
            List.length_eq_zero.mp (by omega), r, hr, hre⟩
        · rintro ⟨-, v1, hv1, -, r, hr, hre⟩
          rw [hv] at hv1
          injection hv1 with hv1
          subst hv1
          exact ⟨r, hr, hre⟩

/-! ### Inline `globals` configuration and its error reporting -/

/-- A comment location (start and end lines; columns are not needed by the
claims). -/
structure CommentLoc where
  startLine : Int
  endLine : Int
deriving DecidableEq

/-- A problem entry `{ruleId, loc, message}` as pushed by the directive and
inline-config scans. -/
structure Problem where
  ruleId : Option String
  message : String
  loc : CommentLoc
deriving DecidableEq

/-- The `"globals"` branch of `applyInlineConfig` for one comment: each
`name → setting` entry is normalized; an invalid setting pushes a problem
carrying the thrown message (no rule id, at the comment's location) and the
entry is skipped without aborting the scan; a valid entry updates the
collected inline globals (appending the comment and overwriting the
value). -/
def applyInlineGlobals (commentTag : Nat) (commentLoc : CommentLoc)
    (entries : List (String × JsValue))
    (st : List Problem × List (String × InlineGlobal)) :
    List Problem × List (String × InlineGlobal) :=
  entries.foldl
    (fun acc entry =>
      match normalizeConfigGlobal entry.2 with
      | .error msg => (acc.1 ++ [⟨none, msg, commentLoc⟩], acc.2)
      | .ok normalizedValue =>
        match alook acc.2 entry.1 with
        | some ig =>
          (acc.1, areplace acc.2 entry.1 ⟨normalizedValue, ig.comments ++ [commentTag]⟩)
        | none => (acc.1, acc.2 ++ [(entry.1, ⟨normalizedValue, [commentTag]⟩)]))
    st

/-- Whether `needle` occurs at the start of `hay`. -/
def segAt : List Char → List Char → Bool
  | [], _ => true
  | _ :: _, [] => false
  | a :: as, b :: bs => a == b && segAt as bs

/-- Whether `needle` occurs contiguously anywhere in `hay` (substring test on
character lists). -/
def containsSeg : List Char → List Char → Bool
  | needle, [] => segAt needle []
  | needle, c :: rest => segAt needle (c :: rest) || containsSeg needle rest

/-- A list starts with itself. -/
theorem segAt_self_append (a y : List Char) : segAt a (a ++ y) = true := by
  induction a with
  | nil => rfl
  | cons c cs ih => simp [segAt, ih]

/-- A starting occurrence is an occurrence. -/
theorem containsSeg_of_segAt (a h : List Char) (hp : segAt a h = true) :
    containsSeg a h = true := by
  cases h with
  | nil => simpa [containsSeg] using hp
  | cons c rest => simp [containsSeg, hp]

/-- A list embedded between two others is contained. -/
theorem containsSeg_append (x a y : List Char) :
    containsSeg a (x ++ (a ++ y)) = true := by
  induction x with
  | nil => exact containsSeg_of_segAt a (a ++ y) (segAt_self_append a y)
  | cons c cs ih => simp [containsSeg, ih]

/-- Counterexample for C9 as stated: for the inline entry `foo: "bogus"`,
exactly one problem is emitted, with no rule id, and its message contains
the offending value `bogus` but does not contain the offending name
`foo` — the message does not identify the name. -/
theorem c9_counterexample_name_not_in_message :
    (applyInlineGlobals 0 ⟨1, 1⟩ [("foo", .str "bogus")] ([], [])).1.map
        (fun p => containsSeg "foo".data p.message.data) = [false] ∧
    (applyInlineGlobals 0 ⟨1, 1⟩ [("foo", .str "bogus")] ([], [])).1.map
        (fun p => containsSeg "bogus".data p.message.data) = [true] ∧
    (applyInlineGlobals 0 ⟨1, 1⟩ [("foo", .str "bogus")] ([], [])).1.map
        Problem.ruleId = [none] ∧
    (applyInlineGlobals 0 ⟨1, 1⟩ [("foo", .str "bogus")] ([], [])).2 = [] := by
  decide

/-- Claim C9 (amended): normalizing a per-name setting whose value is not one
of the recognized forms emits one problem with no rule id at the comment's
location whose message identifies the offending value (the offending name is
not part of the message). -/
theorem c9_amended_config_error_identifies_value (tag : Nat) (cloc : CommentLoc)
    (id : String) (v : JsValue) (m : String)
    (h : normalizeConfigGlobal v = .error m) :
    applyInlineGlobals tag cloc [(id, v)] ([], []) = ([⟨none, m, cloc⟩], []) ∧
      containsSeg (jsValueToString v).data m.data = true := by
  constructor
  · simp [applyInlineGlobals, h]
  · unfold normalizeConfigGlobal at h
    split at h <;> try simp only [reduceCtorEq] at h
    injection h with h1
    subst h1
    rw [String.data_append, String.data_append, List.append_assoc]
    exact containsSeg_append _ _ _

/-- Witness for C9's amended claim at the concrete entry `foo: "bogus"`. -/
theorem c9_amended_config_error_identifies_value_witness :
    applyInlineGlobals 0 ⟨1, 1⟩ [("foo", JsValue.str "bogus")] ([], []) =
      ([⟨none,
        "\x27bogus\x27 is not a valid configuration for a global (use \x27readonly\x27, \x27writable\x27, or \x27off\x27)",
        ⟨1, 1⟩⟩], []) ∧
    containsSeg (jsValueToString (JsValue.str "bogus")).data
      "\x27bogus\x27 is not a valid configuration for a global (use \x27readonly\x27, \x27writable\x27, or \x27off\x27)".data =
      true :=
  c9_amended_config_error_identifies_value 0 ⟨1, 1⟩ "foo" (JsValue.str "bogus") _ (by rfl)

/-! ### Disable directives (`getDisableDirectives`) -/

/-- A config comment as delivered by `getInlineConfigNodes`, with the parse
result of the external `ConfigCommentParser#parseDirective` grafted on
(`label`, `value`, `justification`), plus the comment's `type`, its
location, and an identity tag. -/
structure DirComment where
  tag : Nat
  ctype : String
  label : String
  value : String
  justification : String
  loc : CommentLoc
deriving DecidableEq

/-- A `Directive` object as constructed by `getDisableDirectives`. -/
structure Directive where
  dtype : String
  nodeTag : Nat
  value : String
  justification : String
deriving DecidableEq

/-- The `/^eslint-disable-(next-)?line$/` test on a directive label. -/
def lineCommentSupported (label : String) : Bool :=
  label == "eslint-disable-line" || label == "eslint-disable-next-line"

/-- `label.slice("eslint-".length)`. -/
def directiveTypeOf (label : String) : String :=
  String.mk (label.data.drop 7)

/-- The body of the `forEach` in `getDisableDirectives` for one comment:
line comments are only kept for the two line labels; a same-line suppression
comment spanning several lines yields a problem (no rule id, at the
comment's location) and no directive; the four disable/enable labels yield a
`Directive`; anything else contributes nothing. -/
def processDirectiveComment (comment : DirComment) : List Problem × List Directive :=
  if comment.ctype == "Line" && !lineCommentSupported comment.label then ([], [])
  else if comment.label == "eslint-disable-line" &&
      !(comment.loc.startLine == comment.loc.endLine) then
    ([⟨none, comment.label ++ " comment should not span multiple lines.", comment.loc⟩], [])
  else
    match comment.label with
    | "eslint-disable" | "eslint-enable" | "eslint-disable-next-line"
    | "eslint-disable-line" =>
      ([], [⟨directiveTypeOf comment.label, comment.tag, comment.value,
        comment.justification⟩])
    | _ => ([], [])

/-- `SourceCode#getDisableDirectives` over the parsed config comments (the
memoization cache is a pure optimization of the frozen state and is
omitted): the `forEach` accumulates problems and directives in comment
order. -/
def getDisableDirectives (comments : List DirComment) : List Problem × List Directive :=
  comments.foldl
    (fun acc c =>
      (acc.1 ++ (processDirectiveComment c).1, acc.2 ++ (processDirectiveComment c).2))
    ([], [])

/-- The accumulator of `getDisableDirectives` factors through appends. -/
theorem getDisableDirectives_foldl (comments : List DirComment) :
    ∀ acc : List Problem × List Directive,
      comments.foldl
        (fun acc c =>
          (acc.1 ++ (processDirectiveComment c).1, acc.2 ++ (processDirectiveComment c).2))
        acc =
      (acc.1 ++ (getDisableDirectives comments).1,
        acc.2 ++ (getDisableDirectives comments).2) := by
  induction comments with
  | nil => intro acc; simp [getDisableDirectives]
  | cons c cs ih =>
    intro acc
    rw [List.foldl_cons, ih]
    have hgd : getDisableDirectives (c :: cs) =
        ((processDirectiveComment c).1 ++ (getDisableDirectives cs).1,
          (processDirectiveComment c).2 ++ (getDisableDirectives cs).2) := by
      have h0 : getDisableDirectives (c :: cs) =
          cs.foldl
            (fun acc c => (acc.1 ++ (processDirectiveComment c).1,
              acc.2 ++ (processDirectiveComment c).2))
            (([] : List Problem) ++ (processDirectiveComment c).1,
              ([] : List Directive) ++ (processDirectiveComment c).2) := rfl
      rw [h0, ih]
      simp
    rw [hgd]
    simp [List.append_assoc]

/-- Claim C4: for every same-line suppression comment (`eslint-disable-line`)
whose location spans several lines, `getDisableDirectives` emits exactly one
problem with no rule id at the comment's location, adds no directive for the
comment, and continues scanning the remaining comments. -/
theorem c4_multiline_disable_line_dropped (pre post : List DirComment)
    (c : DirComment) (hl : c.label = "eslint-disable-line")
    (hspan : c.loc.startLine ≠ c.loc.endLine) :
    (getDisableDirectives (pre ++ c :: post)).1 =
      (getDisableDirectives pre).1 ++
        ⟨none, c.label ++ " comment should not span multiple lines.", c.loc⟩ ::
          (getDisableDirectives post).1 ∧
    (getDisableDirectives (pre ++ c :: post)).2 =
      (getDisableDirectives pre).2 ++ (getDisableDirectives post).2 := by
  have hpc : processDirectiveComment c =
      ([⟨none, c.label ++ " comment should not span multiple lines.", c.loc⟩], []) := by
    unfold processDirectiveComment
    rw [hl]
    rw [if_neg (by simp [lineCommentSupported]), if_pos (by simp [hspan])]
  have hsplit : getDisableDirectives (pre ++ c :: post) =
      ((getDisableDirectives pre).1 ++ (getDisableDirectives (c :: post)).1,
        (getDisableDirectives pre).2 ++ (getDisableDirectives (c :: post)).2) := by
    have h0 : getDisableDirectives (pre ++ c :: post) =
        (c :: post).foldl
          (fun acc c => (acc.1 ++ (processDirectiveComment c).1,
            acc.2 ++ (processDirectiveComment c).2))
          (getDisableDirectives pre) := by
      show List.foldl _ ([], []) (pre ++ c :: post) = _
      rw [List.foldl_append]
      rfl
    rw [h0, getDisableDirectives_foldl (c :: post) (getDisableDirectives pre)]
  have hcpost : getDisableDirectives (c :: post) =
      (⟨none, c.label ++ " comment should not span multiple lines.", c.loc⟩ ::
          (getDisableDirectives post).1,
        (getDisableDirectives post).2) := by
    have h0 : getDisableDirectives (c :: post) =
        post.foldl
          (fun acc c => (acc.1 ++ (processDirectiveComment c).1,
            acc.2 ++ (processDirectiveComment c).2))
          (([] : List Problem) ++ (processDirectiveComment c).1,
            ([] : List Directive) ++ (processDirectiveComment c).2) := rfl
    rw [h0, getDisableDirectives_foldl post, hpc]
    simp
  rw [hsplit, hcpost]
  exact ⟨rfl, rfl⟩

/-- Witness for C4 at a concrete input: a two-line `eslint-disable-line`
comment between two valid `eslint-disable` comments yields one rule-id-free
problem at its location and only the two outer directives. -/
theorem c4_multiline_disable_line_dropped_witness :
    (getDisableDirectives
        [⟨0, "Block", "eslint-disable", "a", "", ⟨1, 1⟩⟩,
         ⟨1, "Block", "eslint-disable-line", "b", "", ⟨2, 3⟩⟩,
         ⟨2, "Block", "eslint-enable", "a", "", ⟨4, 4⟩⟩]).1 =
      (getDisableDirectives [⟨0, "Block", "eslint-disable", "a", "", ⟨1, 1⟩⟩]).1 ++
        ⟨none, "eslint-disable-line" ++ " comment should not span multiple lines.", ⟨2, 3⟩⟩ ::
          (getDisableDirectives [⟨2, "Block", "eslint-enable", "a", "", ⟨4, 4⟩⟩]).1 ∧
    (getDisableDirectives
        [⟨0, "Block", "eslint-disable", "a", "", ⟨1, 1⟩⟩,
         ⟨1, "Block", "eslint-disable-line", "b", "", ⟨2, 3⟩⟩,
         ⟨2, "Block", "eslint-enable", "a", "", ⟨4, 4⟩⟩]).2 =
      (getDisableDirectives [⟨0, "Block", "eslint-disable", "a", "", ⟨1, 1⟩⟩]).2 ++
        (getDisableDirectives [⟨2, "Block", "eslint-enable", "a", "", ⟨4, 4⟩⟩]).2 :=
  c4_multiline_disable_line_dropped
    [⟨0, "Block", "eslint-disable", "a", "", ⟨1, 1⟩⟩]
    [⟨2, "Block", "eslint-enable", "a", "", ⟨4, 4⟩⟩]
    ⟨1, "Block", "eslint-disable-line", "b", "", ⟨2, 3⟩⟩ rfl (by decide)

/-! ### `getScope` -/

/-- A scope of the scope manager: its type string and its child scopes. -/
inductive ScopeNode where
  | node (stypeOf : String) (childrenOf : List ScopeNode)

/-- The `type` of a scope. -/
def ScopeNode.stype : ScopeNode → String
  | .node t _ => t

/-- The `childScopes` of a scope. -/
def ScopeNode.children : ScopeNode → List ScopeNode
  | .node _ c => c

/-- The scope manager as consumed by `getScope`: the `acquire(node, inner)`
query (keyed by node identity tag) and the `scopes` array. -/
structure ScopeManagerModel where
  acquire : Nat → Bool → Option ScopeNode
  scopes : List ScopeNode

/-- The node argument of `getScope`: its identity tag and its `type`. -/
structure AstNodeRef where
  id : Nat
  ntype : String
deriving DecidableEq

/-- Lookup in the per-`SourceCode` scopes cache (keyed by node identity). -/
def cacheLook : List (Nat × ScopeNode) → Nat → Option ScopeNode
  | [], _ => none
  | (k, v) :: rest, key => if key = k then some v else cacheLook rest key

/-- The ancestor walk of `getScope` (`for (let node = currentNode; node;
node = node.parent)`): ask `acquire` for each node on the parent chain,
unwrapping a `function-expression-name` scope to its first child scope; when
the chain is exhausted, fall back to the outermost scope
`scopeManager.scopes[0]` and cache it for the queried node like any other
result.  (A JS `undefined` result is modelled as `none` and never cached,
matching the truthiness test on cache hits.) -/
def getScopeWalk (sm : ScopeManagerModel) (inner : Bool)
    (cache : List (Nat × ScopeNode)) (cid : Nat) :
    List AstNodeRef → Option ScopeNode × List (Nat × ScopeNode)
  | [] =>
    match sm.scopes.head? with
    | some s0 => (some s0, cache ++ [(cid, s0)])
    | none => (none, cache)
  | n :: rest =>
    match sm.acquire n.id inner with
    | some scope =>
      if scope.stype = "function-expression-name" then
        match scope.children.head? with
        | some c0 => (some c0, cache ++ [(cid, c0)])
        | none => (none, cache)
      else (some scope, cache ++ [(cid, scope)])
    | none => getScopeWalk sm inner cache cid rest

/-- `SourceCode#getScope` for a present node with the given ancestor chain
(nearest ancestor first): check the cache, then walk the chain with the
`inner` flag fixed by the queried node's type. -/
def getScope (sm : ScopeManagerModel) (cache : List (Nat × ScopeNode))
    (currentNode : AstNodeRef) (ancestors : List AstNodeRef) :
    Option ScopeNode × List (Nat × ScopeNode) :=
  match cacheLook cache currentNode.id with
  | some s => (some s, cache)
  | none =>
    getScopeWalk sm (currentNode.ntype != "Program") cache currentNode.id
      (currentNode :: ancestors)

/-- Claim C10: for a present node whose whole parent chain yields no scope
from the scope manager, `getScope` does not fail: it falls back to the
outermost scope `scopeManager.scopes[0]`, and that fallback result is
memoized for the node like any other result. -/
theorem c10_getScope_fallback (sm : ScopeManagerModel)
    (cache : List (Nat × ScopeNode)) (currentNode : AstNodeRef)
    (ancestors : List AstNodeRef) (s0 : ScopeNode) (srest : List ScopeNode)
    (hmiss : cacheLook cache currentNode.id = none)
    (hscopes : sm.scopes = s0 :: srest)
    (hnone : ∀ n ∈ currentNode :: ancestors,
      sm.acquire n.id (currentNode.ntype != "Program") = none) :
    getScope sm cache currentNode ancestors =
      (some s0, cache ++ [(currentNode.id, s0)]) := by
  have hwalk : ∀ chain : List AstNodeRef,
      (∀ n ∈ chain, sm.acquire n.id (currentNode.ntype != "Program") = none) →
      getScopeWalk sm (currentNode.ntype != "Program") cache currentNode.id chain =
        (some s0, cache ++ [(currentNode.id, s0)]) := by
    intro chain
    induction chain with
    | nil =>
      intro _
      unfold getScopeWalk
      rw [hscopes]
      rfl
    | cons n ns ih =>
      intro hall
      unfold getScopeWalk
      split
      · rename_i scope hacq
        rw [hall n (by simp)] at hacq
        exact absurd hacq (by simp)
      · exact ih fun x hx => hall x (by simp [hx])
  unfold getScope
  rw [hmiss]
  exact hwalk _ hnone

/-- The one-scope scope manager of the C10 witness: `acquire` yields nothing
anywhere. -/
def exScopeManager : ScopeManagerModel :=
  { acquire := fun _ _ => none
    scopes := [ScopeNode.node "global" []] }

/-- Witness for C10 at a concrete input: an identifier node under a
`Program` ancestor, with `acquire` empty, resolves to the outermost scope
and the result is cached. -/
theorem c10_getScope_fallback_witness :
    getScope exScopeManager [] ⟨1, "Identifier"⟩ [⟨0, "Program"⟩] =
      (some (ScopeNode.node "global" []), [(1, ScopeNode.node "global" [])]) :=
  c10_getScope_fallback exScopeManager [] ⟨1, "Identifier"⟩ [⟨0, "Program"⟩]
    (ScopeNode.node "global" []) [] rfl rfl (fun _ _ => rfl)

/-! ### `isSpaceBetween` and the token store -/

/-- A node or token as inspected by `isSpaceBetween`: its range (start and
exclusive end offsets), its `type`, and its text value. -/
structure Entry where
  range0 : Nat
  range1 : Nat
  etype : String
  value : String
deriving DecidableEq

/-- `nodesOrTokensOverlap`. -/
def nodesOrTokensOverlap (first second : Entry) : Bool :=
  (decide (first.range0 ≤ second.range0) && decide (first.range1 ≥ second.range0)) ||
    (decide (second.range0 ≤ first.range0) && decide (second.range1 ≥ first.range0))

/-- Modelled from the spec: whether a merged-timeline entry is a comment
(the token-store queries skip comments unless asked to include them). -/
def isCommentEntry (e : Entry) : Bool :=
  e.etype == "Line" || e.etype == "Block" || e.etype == "Shebang"

/-- Modelled from the spec: `getFirstToken(node)` — the first non-comment
entry of the merged timeline lying inside the node's range (`null` when
there is none). -/
def getFirstToken (tl : List Entry) (node : Entry) : Option Entry :=
  tl.find? fun e =>
    !isCommentEntry e && decide (node.range0 ≤ e.range0) && decide (e.range1 ≤ node.range1)

/-- Modelled from the spec: `getLastToken(node)` — the last such entry. -/
def getLastToken (tl : List Entry) (node : Entry) : Option Entry :=
  (tl.filter fun e =>
    !isCommentEntry e && decide (node.range0 ≤ e.range0) &&
      decide (e.range1 ≤ node.range1)).getLast?

/-- Modelled from the spec: `getTokenAfter(token, { includeComments: true })`
— the next entry of the merged timeline starting at or after the token's
end. -/
def getTokenAfter (tl : List Entry) (t : Entry) : Option Entry :=
  tl.find? fun e => decide (t.range1 ≤ e.range0)

/-- JS `/\s/u.test(value)` restricted to the ASCII whitespace characters
(sufficient for the claims, which do not depend on the exact class). -/
def hasWhitespace (value : String) : Bool :=
  value.data.any fun c =>
    c == ' ' || c == '\t' || c == '\n' || c == '\r' || c == '\x0b' || c == '\x0c'

/-- The `while (currentToken !== finalToken)` walk of `isSpaceBetween`, with
explicit fuel (the timeline length bounds the walk; exhausted fuel or a
missing next token — an ill-formed store on which the JS would throw — gives
`false`). -/
def spaceWalk (tl : List Entry) (finalToken : Entry) (checkInsideOfJSXText : Bool) :
    Nat → Entry → Bool
  | 0, _ => false
  | fuel + 1, currentToken =>
    if currentToken == finalToken then false
    else
      match getTokenAfter tl currentToken with
      | none => false
      | some nextToken =>
        if currentToken.range1 != nextToken.range0 ||
            (checkInsideOfJSXText && !(nextToken == finalToken) &&
              nextToken.etype == "JSXText" && hasWhitespace nextToken.value) then
          true
        else spaceWalk tl finalToken checkInsideOfJSXText fuel nextToken

/-- The module-level `isSpaceBetween(sourceCode, first, second,
checkInsideOfJSXText)`: overlapping arguments give `false`; otherwise the
two are ordered by range, the boundary tokens are computed (falling back to
the node itself), and the merged timeline is walked between them. -/
def isSpaceBetween (tl : List Entry) (first second : Entry)
    (checkInsideOfJSXText : Bool) : Bool :=
  if nodesOrTokensOverlap first second then false
  else
    spaceWalk tl
      ((getFirstToken tl (if first.range1 ≤ second.range0 then second else first)).getD
        (if first.range1 ≤ second.range0 then second else first))
      checkInsideOfJSXText (tl.length + 1)
      ((getLastToken tl (if first.range1 ≤ second.range0 then first else second)).getD
        (if first.range1 ≤ second.range0 then first else second))

/-- `SourceCode#isSpaceBetween` (the public method, which always passes
`checkInsideOfJSXText = false`). -/
def sourceCodeIsSpaceBetween (tl : List Entry) (first second : Entry) : Bool :=
  isSpaceBetween tl first second false

/-- Claim C8: `isSpaceBetween` is order-independent — for every pair of
well-formed nodes/tokens (start not past end) and either JSXText mode,
swapping the arguments gives the same answer — and whenever the two ranges
overlap it returns `false`. -/
theorem c8_isSpaceBetween_symmetric_and_overlap (tl : List Entry) (a b : Entry)
    (ha : a.range0 ≤ a.range1) (hb : b.range0 ≤ b.range1) :
    (∀ checkInsideOfJSXText,
      isSpaceBetween tl a b checkInsideOfJSXText =
        isSpaceBetween tl b a checkInsideOfJSXText) ∧
    (nodesOrTokensOverlap a b = true → sourceCodeIsSpaceBetween tl a b = false) := by
  have hover : nodesOrTokensOverlap a b = nodesOrTokensOverlap b a := by
    unfold nodesOrTokensOverlap
    exact Bool.or_comm _ _
  constructor
  · intro flag
    unfold isSpaceBetween
    by_cases hov : nodesOrTokensOverlap a b = true
    · rw [if_pos hov, if_pos (by rw [← hover]; exact hov)]
    · have hov2 : ¬nodesOrTokensOverlap b a = true := by
        rw [← hover]
        exact hov
      rw [if_neg hov, if_neg hov2]
      by_cases hord : a.range1 ≤ b.range0
      · have hord2 : ¬b.range1 ≤ a.range0 := by
          intro hc
          apply hov
          unfold nodesOrTokensOverlap
          simp only [Bool.or_eq_true, Bool.and_eq_true, decide_eq_true_eq, ge_iff_le]
          omega
        rw [if_pos hord, if_pos hord, if_neg hord2, if_neg hord2]
      · have hord2 : b.range1 ≤ a.range0 := by
          by_contra hc
          apply hov
          unfold nodesOrTokensOverlap
          simp only [Bool.or_eq_true, Bool.and_eq_true, decide_eq_true_eq, ge_iff_le]
          omega
        rw [if_neg hord, if_neg hord, if_pos hord2, if_pos hord2]
  · intro hov
    unfold sourceCodeIsSpaceBetween isSpaceBetween
    rw [if_pos hov]

/-- Witness for C8 at a concrete input: two adjacent one-character tokens in
a three-token timeline with a gap agree in both argument orders, and an
overlapping pair yields `false`. -/
theorem c8_isSpaceBetween_symmetric_and_overlap_witness :
    (isSpaceBetween
        [⟨0, 1, "Identifier", "a"⟩, ⟨2, 3, "Identifier", "b"⟩]
        ⟨0, 1, "Identifier", "a"⟩ ⟨2, 3, "Identifier", "b"⟩ false =
      isSpaceBetween
        [⟨0, 1, "Identifier", "a"⟩, ⟨2, 3, "Identifier", "b"⟩]
        ⟨2, 3, "Identifier", "b"⟩ ⟨0, 1, "Identifier", "a"⟩ false) ∧
    (nodesOrTokensOverlap ⟨0, 2, "Identifier", "ab"⟩ ⟨1, 3, "Identifier", "bc"⟩ = true →
      sourceCodeIsSpaceBetween
        [⟨0, 2, "Identifier", "ab"⟩, ⟨1, 3, "Identifier", "bc"⟩]
        ⟨0, 2, "Identifier", "ab"⟩ ⟨1, 3, "Identifier", "bc"⟩ = false) :=
  ⟨(c8_isSpaceBetween_symmetric_and_overlap
      [⟨0, 1, "Identifier", "a"⟩, ⟨2, 3, "Identifier", "b"⟩]
      ⟨0, 1, "Identifier", "a"⟩ ⟨2, 3, "Identifier", "b"⟩
      (by decide) (by decide)).1 false,
   (c8_isSpaceBetween_symmetric_and_overlap
      [⟨0, 2, "Identifier", "ab"⟩, ⟨1, 3, "Identifier", "bc"⟩]
      ⟨0, 2, "Identifier", "ab"⟩ ⟨1, 3, "Identifier", "bc"⟩
      (by decide) (by decide)).2⟩

end SrcModel
